import Mathlib

/-!
# EngineUtilities: scalar math kernel and small matrices

A shallow embedding of `EngineMath.h`, `Matrix2x2.h` and `Matrix4x4.cpp`.
Single-precision floats are modelled as exact rationals (`ℚ`) wherever a property is
stated over exact arithmetic; every float literal of the source is then read as the
decimal it is written as. Functions whose observable behaviour depends on rounding
(`round`, `mod`, and the binary32 readings of `sqrt` and of the range-reduction loops)
go through `F32`, which rounds every operation to the nearest binary32 value.
-/

/-- Two-component vector collaborator: the public fields `x`, `y`. -/
structure CVector2 where
  x : ℚ
  y : ℚ
deriving DecidableEq

/-- Three-component vector collaborator: the public fields `x`, `y`, `z`. -/
structure CVector3 where
  x : ℚ
  y : ℚ
  z : ℚ
deriving DecidableEq

namespace F32

/-- The nearest integer to `x`, a tie going to the even neighbour. -/
def roundHalfEven (x : ℚ) : ℤ :=
  let f := ⌊x⌋
  let r := x - f
  if r < 1 / 2 then f
  else if r > 1 / 2 then f + 1
  else if f % 2 = 0 then f else f + 1

/-- The exponent of the unit in the last place of a binary32 value near `q`: 23 below
the binary exponent of `q`, the binary exponent being held at -126 in the subnormal
range. -/
def ulpExp (q : ℚ) : ℤ := max (Int.log 2 |q|) (-126) - 23

/-- The largest finite binary32 value, `(2^24 - 1) * 2^104`. -/
def maxFinite : ℚ := (2 ^ 24 - 1) * 2 ^ 104

/-- Rounding to the binary32 grid around `q`, before the overflow check. -/
def rndCore (q : ℚ) : ℚ := roundHalfEven (q / 2 ^ ulpExp q) * 2 ^ ulpExp q

/-- Round to nearest, ties to even, into binary32. There is no finite result (`none`)
when the rounded magnitude exceeds `maxFinite`. Signed zeros are not distinguished. -/
def rnd (q : ℚ) : Option ℚ :=
  if |rndCore q| ≤ maxFinite then some (rndCore q) else none

/-- Binary32 addition of two finite values. -/
def fadd (a b : ℚ) : Option ℚ := rnd (a + b)

/-- Binary32 multiplication of two finite values. -/
def fmul (a b : ℚ) : Option ℚ := rnd (a * b)

/-- Binary32 division of two finite values; a zero divisor gives no finite result. -/
def fdiv (a b : ℚ) : Option ℚ := if b = 0 then none else rnd (a / b)

/-- The binary32 values in structural form: a significand below `2^24` in magnitude
times a power of two with exponent from -149 to 104. -/
def Representable (q : ℚ) : Prop :=
  ∃ M e : ℤ, |M| < 2 ^ 24 ∧ -149 ≤ e ∧ e ≤ 104 ∧ q = (M : ℚ) * 2 ^ e

end F32

namespace EU
namespace Math

/-- Smallest value of the 32-bit `int`. -/
def intMin : ℤ := -2147483648

/-- Largest value of the 32-bit `int`. -/
def intMax : ℤ := 2147483647

/-- An `int` result: present when it fits the 32-bit range, absent on signed
overflow. -/
def intResult (z : ℤ) : Option ℤ :=
  if intMin ≤ z ∧ z ≤ intMax then some z else none

/-- The conversion `static_cast<int>(x)`: the fractional part is discarded (truncation
toward zero); there is no result when the truncated value does not fit an `int`. -/
def staticCastInt (x : ℚ) : Option ℤ :=
  intResult (if 0 ≤ x then ⌊x⌋ else ⌈x⌉)

/-- The Newton guess of `sqrt`, in exact arithmetic, after `k` passes of the loop body
`guess = 0.5f * (guess + x / guess)`, starting from `guess = x / 2.f`. It is also the
guess the pass numbered `k` (counting from 0) divides by. -/
def sqrtIter (x : ℚ) : ℕ → ℚ
  | 0 => x / 2
  | k + 1 => 0.5 * (sqrtIter x k + x / sqrtIter x k)

/-- The source's `sqrt` in exact arithmetic: `0.f` for `x <= 0.f`, otherwise the guess
after the ten passes of `for (int i = 0; i < 10; ++i)`. -/
def sqrt (x : ℚ) : ℚ :=
  if x ≤ 0 then 0 else sqrtIter x 10

/-- The loop of `power`, `for (int i = 0; i < n; ++i) result *= x;`, entered with the
current counter `i` and the current `result`. -/
def powerLoop (x : ℚ) (n i : ℤ) (result : ℚ) : ℚ :=
  if i < n then powerLoop x n (i + 1) (result * x) else result
termination_by (n - i).toNat
decreasing_by omega

/-- The source's `power(x, n)`: `result = 1.f`, then the loop from `i = 0`. -/
def power (x : ℚ) (n : ℤ) : ℚ :=
  powerLoop x n 0 1

/-- The source's `floor`: `int i = static_cast<int>(x);` then
`(x < 0.f && x != i) ? i - 1 : i`. -/
def floor (x : ℚ) : Option ℤ := do
  let i ← staticCastInt x
  if x < 0 ∧ x ≠ i then intResult (i - 1) else pure i

/-- The source's `ceil`: `int i = static_cast<int>(x);` then
`(x > 0.f && x != i) ? i + 1 : i`. -/
def ceil (x : ℚ) : Option ℤ := do
  let i ← staticCastInt x
  if x > 0 ∧ x ≠ i then intResult (i + 1) else pure i

/-- The pair `(term, result)` of `exp` after `k` passes of
`for (int i = 1; i <= 10; ++i)`, the pass with `i = k + 1` doing
`term *= x / static_cast<float>(i); result += term;`. -/
def expIter (x : ℚ) : ℕ → ℚ × ℚ
  | 0 => (1.0, 1.0)
  | k + 1 =>
    let term := (expIter x k).1 * (x / ((k + 1 : ℕ) : ℚ))
    (term, (expIter x k).2 + term)

/-- The source's `exp`: `result` after the ten passes. -/
def exp (x : ℚ) : ℚ :=
  (expIter x 10).2

/-- The loop of `log`, `for (int i = 1; i < 10; i += 2)`, each pass doing
`result += 1.0f / static_cast<float>(i) * power(y, i);`. -/
def logLoop (y : ℚ) (i : ℤ) (result : ℚ) : ℚ :=
  if i < 10 then logLoop y (i + 2) (result + 1.0 / (i : ℚ) * power y i) else result
termination_by (10 - i).toNat
decreasing_by omega

/-- The source's `log`: `0.f` for `x <= 0.f`, otherwise twice the loop sum over
`y = (x - 1) / (x + 1)`; the local `y2` is computed and never read. -/
def log (x : ℚ) : ℚ :=
  if x ≤ 0 then 0
  else
    let y := (x - 1) / (x + 1)
    let _y2 := y * y
    2 * logLoop y 1 0

/-- The source's `log10`: `log(x) / 2.3025851f`. -/
def log10 (x : ℚ) : ℚ :=
  log x / 2.3025851

/-- The first range-reduction loop of `sin` and `cos` in exact arithmetic:
`while (x > 3.14159265f) x -= 2.0f * 3.14159265f;`. Over the rationals each pass
lowers the ceiling of `x` by at least one while keeping it positive, so this reading
of the loop ends for every input. -/
def whileAbovePi (x : ℚ) : ℚ :=
  if x > 3.14159265 then whileAbovePi (x - 2.0 * 3.14159265) else x
termination_by (⌈x⌉).toNat
decreasing_by
  rename_i h
  have hpos : (0 : ℤ) < ⌈x⌉ := Int.ceil_pos.mpr (lt_trans (by norm_num) h)
  have hstep : ⌈x - 2.0 * 3.14159265⌉ ≤ ⌈x⌉ - 1 := by
    rw [Int.ceil_le]
    have := Int.le_ceil x
    push_cast
    linarith
  exact (Int.toNat_lt_toNat hpos).mpr (by omega)

/-- The second range-reduction loop of `sin` and `cos` in exact arithmetic:
`while (x < -3.14159265f) x += 2.0f * 3.14159265f;`. -/
def whileBelowNegPi (x : ℚ) : ℚ :=
  if x < -3.14159265 then whileBelowNegPi (x + 2.0 * 3.14159265) else x
termination_by (⌈-x⌉).toNat
decreasing_by
  rename_i h
  have hpos : (0 : ℤ) < ⌈-x⌉ := Int.ceil_pos.mpr (by linarith)
  have hstep : ⌈-(x + 2.0 * 3.14159265)⌉ ≤ ⌈-x⌉ - 1 := by
    rw [Int.ceil_le]
    have := Int.le_ceil (-x)
    push_cast
    linarith
  exact (Int.toNat_lt_toNat hpos).mpr (by omega)

/-- One pass of the loop body of `sqrt` in binary32,
`guess = 0.5f * (guess + x / guess)`: the quotient, the sum and the product are each
rounded, and a zero guess leaves no finite result. -/
def sqrtStepF32 (x guess : ℚ) : Option ℚ := do
  let d ← F32.fdiv x guess
  let s ← F32.fadd guess d
  F32.fmul 0.5 s

/-- The guess of `sqrt` in binary32 after `k` passes, starting from
`guess = x / 2.f`; it is also the guess the pass numbered `k` divides by. -/
def sqrtIterF32 (x : ℚ) : ℕ → Option ℚ
  | 0 => F32.fdiv x 2.0
  | k + 1 => (sqrtIterF32 x k).bind (sqrtStepF32 x)

/-- The source's `sqrt` in binary32: `0.f` for `x <= 0.f`, otherwise the guess after
the ten passes. -/
def sqrtF32 (x : ℚ) : Option ℚ :=
  if x ≤ 0 then some 0 else sqrtIterF32 x 10

/-- The source's `EU::Math::sin`: both loops, then the four-term series. -/
def sin (x : ℚ) : ℚ :=
  let x := whileAbovePi x
  let x := whileBelowNegPi x
  let x2 := x * x
  x - (x2 * x) / 6.0 + (x2 * x2 * x) / 120.0 -
    (x2 * x2 * x2 * x) / 5040.0

/-- The source's `EU::Math::cos`: both loops, then the series up to `x^6 / 720`. -/
def cos (x : ℚ) : ℚ :=
  let x := whileAbovePi x
  let x := whileBelowNegPi x
  let x2 := x * x
  1.0 - x2 / 2.0 + (x2 * x2) / 24.0 - (x2 * x2 * x2) / 720.0

end Math
end EU

/-- The class `Matrix2x2`: four float fields in row-major order. -/
structure Matrix2x2 where
  m00 : ℚ
  m01 : ℚ
  m10 : ℚ
  m11 : ℚ
deriving DecidableEq

namespace Matrix2x2

/-- Default constructor `Matrix2x2()`: `m00(1.f), m01(0.f), m10(0.f), m11(1.f)`. -/
def ctor : Matrix2x2 := ⟨1, 0, 0, 1⟩

/-- The source's `operator+(const Matrix2x2&)`. -/
def add (a other : Matrix2x2) : Matrix2x2 :=
  ⟨a.m00 + other.m00, a.m01 + other.m01,
   a.m10 + other.m10, a.m11 + other.m11⟩

/-- The source's `operator-(const Matrix2x2&)`. -/
def sub (a other : Matrix2x2) : Matrix2x2 :=
  ⟨a.m00 - other.m00, a.m01 - other.m01,
   a.m10 - other.m10, a.m11 - other.m11⟩

/-- The source's `operator*(float scalar)`. -/
def mulScalar (a : Matrix2x2) (scalar : ℚ) : Matrix2x2 :=
  ⟨a.m00 * scalar, a.m01 * scalar,
   a.m10 * scalar, a.m11 * scalar⟩

/-- The source's `operator*(const Matrix2x2& other)`. -/
def mul (a other : Matrix2x2) : Matrix2x2 :=
  ⟨a.m00 * other.m00 + a.m01 * other.m10, a.m00 * other.m01 + a.m01 * other.m11,
   a.m10 * other.m00 + a.m11 * other.m10, a.m10 * other.m01 + a.m11 * other.m11⟩

/-- The source's `operator*(const CVector2& vec)`. -/
def mulVec (a : Matrix2x2) (vec : CVector2) : CVector2 :=
  ⟨a.m00 * vec.x + a.m01 * vec.y,
   a.m10 * vec.x + a.m11 * vec.y⟩

/-- The source's `determinant()`: `m00 * m11 - m01 * m10`. -/
def determinant (a : Matrix2x2) : ℚ :=
  a.m00 * a.m11 - a.m01 * a.m10

/-- The source's `transpose()`. -/
def transpose (a : Matrix2x2) : Matrix2x2 :=
  ⟨a.m00, a.m10,
   a.m01, a.m11⟩

/-- The source's `inverse()`: the default-constructed matrix when the determinant is
zero, otherwise the adjugate scaled by `invDet = 1.f / det`. -/
def inverse (a : Matrix2x2) : Matrix2x2 :=
  let det := a.determinant
  if det = 0 then ctor
  else
    let invDet := 1 / det
    ⟨a.m11 * invDet, -a.m01 * invDet,
     -a.m10 * invDet, a.m00 * invDet⟩

/-- The source's `setIdentity()`: overwrites all four fields of the receiver. -/
def setIdentity (_a : Matrix2x2) : Matrix2x2 :=
  ⟨1, 0, 0, 1⟩

/-- The source's `setScale(scaleX, scaleY)`. -/
def setScale (_a : Matrix2x2) (scaleX scaleY : ℚ) : Matrix2x2 :=
  ⟨scaleX, 0, 0, scaleY⟩

/-- The private `Matrix2x2::sin`: the same two loops over the literal `3.14159265f`
as `EU::Math::sin`, then the four-term series. -/
def sin (x : ℚ) : ℚ :=
  let x := EU.Math.whileAbovePi x
  let x := EU.Math.whileBelowNegPi x
  let x2 := x * x
  x
    - (x2 * x) / 6
    + (x2 * x2 * x) / 120
    - (x2 * x2 * x2 * x) / 5040

/-- The private `Matrix2x2::cos`: the same two loops, then the series up to
`x^6 / 720`. -/
def cos (x : ℚ) : ℚ :=
  let x := EU.Math.whileAbovePi x
  let x := EU.Math.whileBelowNegPi x
  let x2 := x * x
  1
    - x2 / 2
    + (x2 * x2) / 24
    - (x2 * x2 * x2) / 720

/-- The source's `setRotation(radians)`: `m00 = c; m01 = -s; m10 = s; m11 = c;`. -/
def setRotation (_a : Matrix2x2) (radians : ℚ) : Matrix2x2 :=
  let c := cos radians
  let s := sin radians
  ⟨c, -s, s, c⟩

/-- The source's static `zero()`. -/
def zero : Matrix2x2 := ⟨0, 0, 0, 0⟩

/-- The source's static `identity()`: `return Matrix2x2();`. -/
def identity : Matrix2x2 := ctor

end Matrix2x2

namespace EU

/-- The class `EU::Matrix4x4`: the array `float m[4][4]`, indexed row then column. -/
structure Matrix4x4 where
  m : Fin 4 → Fin 4 → ℚ

namespace Matrix4x4

/-- The assignment `m[i][j] = v`. -/
def set (a : Matrix4x4) (i j : Fin 4) (v : ℚ) : Matrix4x4 :=
  ⟨fun r c => if r = i ∧ c = j then v else a.m r c⟩

/-- The source's `setIdentity()`: the two nested loops over `i` and `j` in `0..3`,
each pass assigning `m[i][j] = (i == j) ? 1.f : 0.f`. -/
def setIdentity (a : Matrix4x4) : Matrix4x4 :=
  (List.finRange 4).foldl
    (fun acc i => (List.finRange 4).foldl
      (fun acc2 j => acc2.set i j (if i = j then 1 else 0)) acc) a

/-- The source's `setScale`: `setIdentity()` and then the three diagonal
assignments. -/
def setScale (a : Matrix4x4) (scaleX scaleY scaleZ : ℚ) : Matrix4x4 :=
  (((a.setIdentity).set 0 0 scaleX).set 1 1 scaleY).set 2 2 scaleZ

/-- Division that records a zero divisor: `none` when the divisor is zero. -/
def checkedDiv (a b : ℚ) : Option ℚ :=
  if b = 0 then none else some (a / b)

/-- The source's `transformPoint`: the four row sums, then `x /= w; y /= w; z /= w;`
under the guard `w != 0.f`. Every division goes through `checkedDiv`, so a division
by zero would surface as `none`. -/
def transformPoint (a : Matrix4x4) (vec : CVector3) : Option CVector3 :=
  let x := a.m 0 0 * vec.x + a.m 0 1 * vec.y + a.m 0 2 * vec.z + a.m 0 3
  let y := a.m 1 0 * vec.x + a.m 1 1 * vec.y + a.m 1 2 * vec.z + a.m 1 3
  let z := a.m 2 0 * vec.x + a.m 2 1 * vec.y + a.m 2 2 * vec.z + a.m 2 3
  let w := a.m 3 0 * vec.x + a.m 3 1 * vec.y + a.m 3 2 * vec.z + a.m 3 3
  if w ≠ 0 then do
    let x1 ← checkedDiv x w
    let y1 ← checkedDiv y w
    let z1 ← checkedDiv z w
    pure ⟨x1, y1, z1⟩
  else
    pure ⟨x, y, z⟩

/-- The dot product of row `r` of the matrix with the column `(v.x, v.y, v.z, 1)`, as
the specification words the homogeneous transform. -/
def rowDotHomogeneous (a : Matrix4x4) (r : Fin 4) (v : CVector3) : ℚ :=
  a.m r 0 * v.x + a.m r 1 * v.y + a.m r 2 * v.z + a.m r 3 * 1

end Matrix4x4
end EU

/-! ## Matrix2x2: algebraic laws -/

/-- C2: for every Matrix2x2 whose determinant is zero, inverse returns exactly the
identity matrix with entries (1, 0, 0, 1); inverse is a total function of its
receiver, so no error is signalled and the receiver is left as it was. -/
theorem Matrix2x2_inverse_singular (M : Matrix2x2) (h : M.determinant = 0) :
    M.inverse = Matrix2x2.identity ∧ M.inverse = Matrix2x2.mk 1 0 0 1 := by
  simp [Matrix2x2.inverse, h, Matrix2x2.identity, Matrix2x2.ctor]

/-- Witness for C2 at the singular matrix with rows (1, 2) and (2, 4). -/
theorem Matrix2x2_inverse_singular_witness :
    (Matrix2x2.mk 1 2 2 4).determinant = 0 ∧
    (Matrix2x2.mk 1 2 2 4).inverse = Matrix2x2.identity ∧
    (Matrix2x2.mk 1 2 2 4).inverse = Matrix2x2.mk 1 0 0 1 :=
  ⟨by norm_num [Matrix2x2.determinant],
   Matrix2x2_inverse_singular (Matrix2x2.mk 1 2 2 4) (by norm_num [Matrix2x2.determinant])⟩

/-- C3: multiplying any Matrix2x2 by identity() on either side gives the matrix back,
entry by entry, and identity() is the value built by the default constructor. -/
theorem Matrix2x2_identity_law (M : Matrix2x2) :
    M.mul Matrix2x2.identity = M ∧ Matrix2x2.identity.mul M = M ∧
    Matrix2x2.identity = Matrix2x2.ctor := by
  obtain ⟨a, b, c, d⟩ := M
  simp [Matrix2x2.mul, Matrix2x2.identity, Matrix2x2.ctor]

/-- C4: transposing twice gives the matrix back exactly, and transpose swaps m01 with
m10 while m00 and m11 stay in place. -/
theorem Matrix2x2_transpose_involution (M : Matrix2x2) :
    M.transpose.transpose = M ∧
    M.transpose.m01 = M.m10 ∧ M.transpose.m10 = M.m01 ∧
    M.transpose.m00 = M.m00 ∧ M.transpose.m11 = M.m11 := by
  obtain ⟨a, b, c, d⟩ := M
  simp [Matrix2x2.transpose]

/-- C5: the determinant of a Matrix2x2 multiplied by a scalar s is s * s times the
determinant of the matrix. -/
theorem Matrix2x2_determinant_mulScalar (M : Matrix2x2) (s : ℚ) :
    (M.mulScalar s).determinant = s * s * M.determinant := by
  simp only [Matrix2x2.mulScalar, Matrix2x2.determinant]
  ring

/-! ## Matrix4x4: homogeneous transform and scale -/

/-- After `setIdentity` every entry is 1 on the diagonal and 0 elsewhere, whatever the
matrix held before. -/
theorem Matrix4x4_setIdentity_entries (a : EU.Matrix4x4) (i j : Fin 4) :
    (a.setIdentity).m i j = if i = j then 1 else 0 := by
  have hrange : List.finRange 4 = [0, 1, 2, 3] := by decide
  fin_cases i <;> fin_cases j <;>
    simp [EU.Matrix4x4.setIdentity, EU.Matrix4x4.set, hrange]

/-- C6: transformPoint forms x, y, z, w as the dot products of rows 0 to 3 with the
column (v.x, v.y, v.z, 1); when w is non-zero it returns (x/w, y/w, z/w), when w is
zero it returns the undivided (x, y, z); the result is always present, so no checked
division ever meets a zero divisor. -/
theorem Matrix4x4_transformPoint_perspective_divide (a : EU.Matrix4x4) (v : CVector3) :
    a.transformPoint v =
      some (if a.rowDotHomogeneous 3 v ≠ 0 then
              ⟨a.rowDotHomogeneous 0 v / a.rowDotHomogeneous 3 v,
               a.rowDotHomogeneous 1 v / a.rowDotHomogeneous 3 v,
               a.rowDotHomogeneous 2 v / a.rowDotHomogeneous 3 v⟩
            else
              ⟨a.rowDotHomogeneous 0 v, a.rowDotHomogeneous 1 v,
               a.rowDotHomogeneous 2 v⟩) := by
  simp only [EU.Matrix4x4.transformPoint, EU.Matrix4x4.rowDotHomogeneous, mul_one]
  by_cases hw : a.m 3 0 * v.x + a.m 3 1 * v.y + a.m 3 2 * v.z + a.m 3 3 = 0
  · simp [hw]
  · simp [hw, EU.Matrix4x4.checkedDiv]

/-- C7: from any prior state, setScale(sx, sy, sz) leaves the matrix diag(sx, sy, sz, 1)
with every off-diagonal entry 0, transformPoint then maps v to
(sx * v.x, sy * v.y, sz * v.z), and setScale(2, 3, 4) maps (1, 1, 1) to (2, 3, 4). -/
theorem Matrix4x4_setScale_transformPoint (a : EU.Matrix4x4) (sx sy sz : ℚ) (v : CVector3) :
    (∀ i j : Fin 4, (a.setScale sx sy sz).m i j =
      if i = j then (if i = 0 then sx else if i = 1 then sy else if i = 2 then sz else 1)
      else 0) ∧
    (a.setScale sx sy sz).transformPoint v = some ⟨sx * v.x, sy * v.y, sz * v.z⟩ ∧
    (a.setScale 2 3 4).transformPoint ⟨1, 1, 1⟩ = some ⟨2, 3, 4⟩ := by
  have entries : ∀ (p q r : ℚ) (i j : Fin 4), (a.setScale p q r).m i j =
      if i = j then (if i = 0 then p else if i = 1 then q else if i = 2 then r else 1)
      else 0 := by
    intro p q r i j
    fin_cases i <;> fin_cases j <;>
      simp [EU.Matrix4x4.setScale, EU.Matrix4x4.set, Matrix4x4_setIdentity_entries]
  have point : ∀ (p q r : ℚ) (u : CVector3),
      (a.setScale p q r).transformPoint u = some ⟨p * u.x, q * u.y, r * u.z⟩ := by
    intro p q r u
    simp [EU.Matrix4x4.transformPoint, entries, EU.Matrix4x4.checkedDiv]
  refine ⟨entries sx sy sz, point sx sy sz v, ?_⟩
  rw [point]
  norm_num

/-! ## Range reduction of the trigonometric functions -/

/-- The first loop leaves an argument that is not above the literal untouched. -/
theorem whileAbovePi_of_le (x : ℚ) (h : x ≤ 3.14159265) : EU.Math.whileAbovePi x = x := by
  rw [EU.Math.whileAbovePi, if_neg (not_lt.mpr h)]

/-- The second loop leaves an argument that is not below minus the literal untouched. -/
theorem whileBelowNegPi_of_ge (x : ℚ) (h : -3.14159265 ≤ x) :
    EU.Math.whileBelowNegPi x = x := by
  rw [EU.Math.whileBelowNegPi, if_neg (not_lt.mpr h)]

/-- The first loop ends at or below the literal, and strictly above minus the literal
whenever it ran at least once. -/
theorem whileAbovePi_range (x : ℚ) :
    EU.Math.whileAbovePi x ≤ 3.14159265 ∧
    (3.14159265 < x → -3.14159265 < EU.Math.whileAbovePi x) := by
  induction x using EU.Math.whileAbovePi.induct with
  | case1 x hx ih =>
    rw [EU.Math.whileAbovePi, if_pos hx]
    refine ⟨ih.1, fun _ => ?_⟩
    rcases lt_or_le (3.14159265 : ℚ) (x - 2.0 * 3.14159265) with h | h
    · exact ih.2 h
    · rw [whileAbovePi_of_le _ h]
      have hx1 : (3.14159265 : ℚ) < x := hx
      linarith
  | case2 x hx =>
    rw [EU.Math.whileAbovePi, if_neg hx]
    exact ⟨not_lt.mp hx, fun h => absurd h hx⟩

/-- The second loop ends at or above minus the literal, and strictly below the literal
whenever it ran at least once. -/
theorem whileBelowNegPi_range (x : ℚ) :
    -3.14159265 ≤ EU.Math.whileBelowNegPi x ∧
    (x < -3.14159265 → EU.Math.whileBelowNegPi x < 3.14159265) := by
  induction x using EU.Math.whileBelowNegPi.induct with
  | case1 x hx ih =>
    rw [EU.Math.whileBelowNegPi, if_pos hx]
    refine ⟨ih.1, fun _ => ?_⟩
    rcases lt_or_le (x + 2.0 * 3.14159265) (-3.14159265 : ℚ) with h | h
    · exact ih.2 h
    · rw [whileBelowNegPi_of_ge _ h]
      linarith
  | case2 x hx =>
    rw [EU.Math.whileBelowNegPi, if_neg hx]
    exact ⟨not_lt.mp hx, fun h => absurd h hx⟩

/-- After both loops the argument lies between minus the literal and the literal. -/
theorem rangeReduced_mem (x : ℚ) :
    -3.14159265 ≤ EU.Math.whileBelowNegPi (EU.Math.whileAbovePi x) ∧
    EU.Math.whileBelowNegPi (EU.Math.whileAbovePi x) ≤ 3.14159265 := by
  have hA := (whileAbovePi_range x).1
  have hB := whileBelowNegPi_range (EU.Math.whileAbovePi x)
  refine ⟨hB.1, ?_⟩
  rcases lt_or_le (EU.Math.whileAbovePi x) (-3.14159265 : ℚ) with h | h
  · exact le_of_lt (hB.2 h)
  · rw [whileBelowNegPi_of_ge _ h]
    exact hA

/-! ## Bounds on the truncated series over the reduced range -/

/-- The cosine series stays between -1.22 and 1 on the reduced range. -/
theorem cosSeries_bounds (y : ℚ) (h1 : -3.14159265 ≤ y) (h2 : y ≤ 3.14159265) :
    -1.22 ≤ 1.0 - (y * y) / 2.0 + ((y * y) * (y * y)) / 24.0
      - ((y * y) * (y * y) * (y * y)) / 720.0 ∧
    1.0 - (y * y) / 2.0 + ((y * y) * (y * y)) / 24.0
      - ((y * y) * (y * y) * (y * y)) / 720.0 ≤ 1 := by
  have ht0 : 0 ≤ y * y := mul_self_nonneg y
  have htT : y * y ≤ 3.14159265 * 3.14159265 := by nlinarith
  generalize y * y = t at ht0 htT
  constructor
  · have hQ : 0 ≤ 360 - 30 * (t + 3.14159265 * 3.14159265) + t ^ 2
        + t * (3.14159265 * 3.14159265) + (3.14159265 * 3.14159265) ^ 2 := by
      nlinarith [sq_nonneg (t - 10), sq_nonneg (t + 3.14159265 * 3.14159265 - 20)]
    have hprod := mul_nonneg (sub_nonneg.mpr htT) hQ
    norm_num at hprod ⊢
    nlinarith [hprod]
  · have : 0 ≤ t * (360 - 30 * t + t ^ 2) :=
      mul_nonneg ht0 (by nlinarith [sq_nonneg (t - 15)])
    norm_num
    nlinarith [this]

/-- The cubic head `x - x^3/6` of the sine series never exceeds 0.943 for `x ≥ 0`. -/
theorem sinCubic_le (x : ℚ) (hx : 0 ≤ x) : x - x ^ 3 / 6 ≤ 0.943 := by
  nlinarith [mul_nonneg hx (sq_nonneg (x - 1.414)), sq_nonneg (x - 1.414)]

/-- The cubic head of the sine series is decreasing from the square root of 2 on. -/
theorem sinCubic_anti (a x : ℚ) (ha : 0 ≤ a) (ha2 : 2 ≤ a * a) (hax : a ≤ x) :
    x - x ^ 3 / 6 ≤ a - a ^ 3 / 6 := by
  have h1 : 0 ≤ (x - a) * (x * x + a * x + a * a - 6) := by
    apply mul_nonneg (sub_nonneg.mpr hax)
    nlinarith [mul_nonneg ha (sub_nonneg.mpr hax)]
  nlinarith [h1]

/-- The tail `x^5/120 - x^7/5040` of the sine series on an interval `[a, b]`. -/
theorem sinTail_le (a b x : ℚ) (ha : 0 ≤ a) (hax : a ≤ x) (hxb : x ≤ b)
    (hb : b * b ≤ 42) :
    x ^ 5 / 120 - x ^ 7 / 5040 ≤ b ^ 5 * (42 - a * a) / 5040 := by
  have hx0 : 0 ≤ x := le_trans ha hax
  have e : x ^ 5 / 120 - x ^ 7 / 5040 = x ^ 5 * (42 - x * x) / 5040 := by ring
  rw [e]
  have h5 : x ^ 5 ≤ b ^ 5 := pow_le_pow_left₀ hx0 hxb 5
  have hxx : x * x ≤ b * b := mul_le_mul hxb hxb hx0 (le_trans hx0 hxb)
  have haa : a * a ≤ x * x := mul_le_mul hax hax ha hx0
  have h42 : 42 - x * x ≤ 42 - a * a := by linarith
  have hnn : 0 ≤ 42 - x * x := by linarith
  have := mul_le_mul h5 h42 hnn (pow_nonneg (le_trans hx0 hxb) 5)
  linarith

/-- The sine series on an interval `[a, b]` to the right of the square root of 2. -/
theorem sinSeries_piece (a b x : ℚ) (ha : 0 ≤ a) (ha2 : 2 ≤ a * a) (hax : a ≤ x)
    (hxb : x ≤ b) (hb : b * b ≤ 42) :
    x - x ^ 3 / 6 + x ^ 5 / 120 - x ^ 7 / 5040
      ≤ (a - a ^ 3 / 6) + b ^ 5 * (42 - a * a) / 5040 := by
  have h1 := sinCubic_anti a x ha ha2 hax
  have h2 := sinTail_le a b x ha hax hxb hb
  linarith

/-- The sine series is at most 1.05 on `[0, 3.14159265]`. -/
theorem sinSeries_upper (x : ℚ) (hx : 0 ≤ x) (hP : x ≤ 3.14159265) :
    x - x ^ 3 / 6 + x ^ 5 / 120 - x ^ 7 / 5040 ≤ 1.05 := by
  rcases le_total x 1.6 with h | h
  · have h1 := sinCubic_le x hx
    have h2 := sinTail_le 0 1.6 x le_rfl hx h (by norm_num)
    norm_num at h1 h2 ⊢
    linarith
  rcases le_total x 1.75 with h' | h'
  · exact (sinSeries_piece 1.6 1.75 x (by norm_num) (by norm_num) h h'
      (by norm_num)).trans (by norm_num)
  rcases le_total x 1.9 with h | h
  · exact (sinSeries_piece 1.75 1.9 x (by norm_num) (by norm_num) h' h
      (by norm_num)).trans (by norm_num)
  rcases le_total x 2.05 with h' | h'
  · exact (sinSeries_piece 1.9 2.05 x (by norm_num) (by norm_num) h h'
      (by norm_num)).trans (by norm_num)
  rcases le_total x 2.2 with h | h
  · exact (sinSeries_piece 2.05 2.2 x (by norm_num) (by norm_num) h' h
      (by norm_num)).trans (by norm_num)
  rcases le_total x 2.4 with h' | h'
  · exact (sinSeries_piece 2.2 2.4 x (by norm_num) (by norm_num) h h'
      (by norm_num)).trans (by norm_num)
  rcases le_total x 2.65 with h | h
  · exact (sinSeries_piece 2.4 2.65 x (by norm_num) (by norm_num) h' h
      (by norm_num)).trans (by norm_num)
  rcases le_total x 2.9 with h' | h'
  · exact (sinSeries_piece 2.65 2.9 x (by norm_num) (by norm_num) h h'
      (by norm_num)).trans (by norm_num)
  · exact (sinSeries_piece 2.9 3.14159265 x (by norm_num) (by norm_num) h' hP
      (by norm_num)).trans (by norm_num)

/-- The sine series is at least -1.05 on `[0, 3.14159265]`. -/
theorem sinSeries_lower (x : ℚ) (hx : 0 ≤ x) (hP : x ≤ 3.14159265) :
    -1.05 ≤ x - x ^ 3 / 6 + x ^ 5 / 120 - x ^ 7 / 5040 := by
  have h7 : x ^ 7 ≤ 3.14159265 ^ 7 := pow_le_pow_left₀ hx hP 7
  have hq : 0 ≤ x * (120 - 20 * (x * x) + (x * x) ^ 2) :=
    mul_nonneg hx (by nlinarith [sq_nonneg (x * x - 10)])
  norm_num at h7 ⊢
  nlinarith [hq, h7]

/-- The sine series stays within [-1.05, 1.05] on the whole reduced range. -/
theorem sinSeries_bounds (y : ℚ) (h1 : -3.14159265 ≤ y) (h2 : y ≤ 3.14159265) :
    -1.05 ≤ y - (y * y * y) / 6.0 + (y * y * (y * y) * y) / 120.0
      - (y * y * (y * y) * (y * y) * y) / 5040.0 ∧
    y - (y * y * y) / 6.0 + (y * y * (y * y) * y) / 120.0
      - (y * y * (y * y) * (y * y) * y) / 5040.0 ≤ 1.05 := by
  have e : y - (y * y * y) / 6.0 + (y * y * (y * y) * y) / 120.0
      - (y * y * (y * y) * (y * y) * y) / 5040.0
      = y - y ^ 3 / 6 + y ^ 5 / 120 - y ^ 7 / 5040 := by
    norm_num
    ring
  rw [e]
  rcases le_total 0 y with h | h
  · exact ⟨sinSeries_lower y h h2, sinSeries_upper y h h2⟩
  · have hn0 : 0 ≤ -y := by linarith
    have hnP : -y ≤ 3.14159265 := by linarith
    have hu := sinSeries_upper (-y) hn0 hnP
    have hl := sinSeries_lower (-y) hn0 hnP
    have odd : (-y) - (-y) ^ 3 / 6 + (-y) ^ 5 / 120 - (-y) ^ 7 / 5040
        = -(y - y ^ 3 / 6 + y ^ 5 / 120 - y ^ 7 / 5040) := by ring
    rw [odd] at hu hl
    constructor <;> linarith

/-- For every argument, `EU::Math::cos` lies between -1.22 and 1. -/
theorem cos_range_all (x : ℚ) : -1.22 ≤ EU.Math.cos x ∧ EU.Math.cos x ≤ 1 := by
  obtain ⟨h1, h2⟩ := rangeReduced_mem x
  exact cosSeries_bounds _ h1 h2

/-- For every argument, `EU::Math::sin` lies between -1.05 and 1.05. -/
theorem sin_range_all (x : ℚ) : -1.05 ≤ EU.Math.sin x ∧ EU.Math.sin x ≤ 1.05 := by
  obtain ⟨h1, h2⟩ := rangeReduced_mem x
  exact sinSeries_bounds _ h1 h2

/-! ## Trigonometric bounds -/

/-- C8, as amended: for every x with -10 * 3.14159265 ≤ x ≤ 10 * 3.14159265,
`EU::Math::cos(x)` lies in the closed interval [-1.22, 1.05]. -/
theorem EU_Math_cos_bound (x : ℚ) (_hlo : -(10 * 3.14159265) ≤ x)
    (_hhi : x ≤ 10 * 3.14159265) :
    -1.22 ≤ EU.Math.cos x ∧ EU.Math.cos x ≤ 1.05 := by
  obtain ⟨h1, h2⟩ := cos_range_all x
  exact ⟨h1, h2.trans (by norm_num)⟩

/-- Witness for the amended C8 at x = 10, an argument the first loop has to reduce. -/
theorem EU_Math_cos_bound_witness :
    (-(10 * 3.14159265) ≤ (10 : ℚ) ∧ (10 : ℚ) ≤ 10 * 3.14159265) ∧
    -1.22 ≤ EU.Math.cos 10 ∧ EU.Math.cos 10 ≤ 1.05 :=
  ⟨⟨by norm_num, by norm_num⟩, EU_Math_cos_bound 10 (by norm_num) (by norm_num)⟩

/-- C8 as stated fails at x = 3: the argument is inside [-10 * 3.14159265,
10 * 3.14159265], neither loop runs, and the series gives
1 - 9/2 + 81/24 - 729/720 = -1.1375, which is below -1.05. -/
theorem EU_Math_cos_bound_counterexample :
    (-(10 * 3.14159265) ≤ (3 : ℚ) ∧ (3 : ℚ) ≤ 10 * 3.14159265) ∧
    EU.Math.cos 3 = -1.1375 ∧
    ¬ (-1.05 ≤ EU.Math.cos 3 ∧ EU.Math.cos 3 ≤ 1.05) := by
  have hc : EU.Math.cos 3 = -1.1375 := by
    simp only [EU.Math.cos]
    rw [whileAbovePi_of_le 3 (by norm_num), whileBelowNegPi_of_ge 3 (by norm_num)]
    norm_num
  refine ⟨⟨by norm_num, by norm_num⟩, hc, ?_⟩
  rw [hc]
  norm_num

/-- C9: for every x with -10 * 3.14159265 ≤ x ≤ 10 * 3.14159265, `EU::Math::sin(x)`
lies in the closed interval [-1.05, 1.05]. -/
theorem EU_Math_sin_bound (x : ℚ) (_hlo : -(10 * 3.14159265) ≤ x)
    (_hhi : x ≤ 10 * 3.14159265) :
    -1.05 ≤ EU.Math.sin x ∧ EU.Math.sin x ≤ 1.05 :=
  sin_range_all x

/-- Witness for C9 at x = -10, an argument the second loop has to reduce. -/
theorem EU_Math_sin_bound_witness :
    (-(10 * 3.14159265) ≤ (-10 : ℚ) ∧ (-10 : ℚ) ≤ 10 * 3.14159265) ∧
    -1.05 ≤ EU.Math.sin (-10) ∧ EU.Math.sin (-10) ≤ 1.05 :=
  ⟨⟨by norm_num, by norm_num⟩, EU_Math_sin_bound (-10) (by norm_num) (by norm_num)⟩

/-! ## Scalar functions: fallbacks, square root, power, exponential -/

/-- C11: for every x ≤ 0, sqrt(x), log(x) and log10(x) all return 0; each is a total
function, so none of them signals an error. -/
theorem EU_Math_nonpositive_fallback (x : ℚ) (h : x ≤ 0) :
    EU.Math.sqrt x = 0 ∧ EU.Math.log x = 0 ∧ EU.Math.log10 x = 0 := by
  have hs : EU.Math.sqrt x = 0 := by simp [EU.Math.sqrt, h]
  have hl : EU.Math.log x = 0 := by simp [EU.Math.log, h]
  exact ⟨hs, hl, by simp [EU.Math.log10, hl]⟩

/-- Witness for C11 at x = -1. -/
theorem EU_Math_nonpositive_fallback_witness :
    (-1 : ℚ) ≤ 0 ∧
    EU.Math.sqrt (-1) = 0 ∧ EU.Math.log (-1) = 0 ∧ EU.Math.log10 (-1) = 0 :=
  ⟨by norm_num, EU_Math_nonpositive_fallback (-1) (by norm_num)⟩

/-- With x = 4 the Newton guess is 2 after any number of passes. -/
theorem sqrtIter_four (k : ℕ) : EU.Math.sqrtIter 4 k = 2 := by
  induction k with
  | zero => norm_num [EU.Math.sqrtIter]
  | succ k ih => rw [EU.Math.sqrtIter, ih]; norm_num

/-- C12: sqrt(4) is the Newton iteration started at 4/2 and run through exactly ten
passes of guess = 0.5 * (guess + 4 / guess); its value is exactly 2, hence within
0.001 of 2.0. -/
theorem EU_Math_sqrt_four :
    EU.Math.sqrt 4 = EU.Math.sqrtIter 4 10 ∧
    EU.Math.sqrtIter 4 0 = 4 / 2 ∧
    (∀ k : ℕ, EU.Math.sqrtIter 4 (k + 1)
      = 0.5 * (EU.Math.sqrtIter 4 k + 4 / EU.Math.sqrtIter 4 k)) ∧
    EU.Math.sqrt 4 = 2 ∧
    |EU.Math.sqrt 4 - 2.0| < 0.001 := by
  have h : EU.Math.sqrt 4 = 2 := by
    simp only [EU.Math.sqrt, sqrtIter_four]
    norm_num
  refine ⟨by simp [EU.Math.sqrt], rfl, fun k => rfl, h, ?_⟩
  rw [h]
  norm_num

/-- The loop of `power` multiplies the running result by x once for every counter
value from i up to n - 1. -/
theorem powerLoop_eq (x : ℚ) (n i : ℤ) (result : ℚ) :
    EU.Math.powerLoop x n i result = result * x ^ (n - i).toNat := by
  induction i, result using EU.Math.powerLoop.induct x n with
  | case1 i result hlt ih =>
    rw [EU.Math.powerLoop, if_pos hlt, ih]
    have e : (n - i).toNat = (n - (i + 1)).toNat + 1 := by omega
    rw [e, pow_succ]
    ring
  | case2 i result hge =>
    rw [EU.Math.powerLoop, if_neg hge]
    have e : (n - i).toNat = 0 := by omega
    rw [e, pow_zero, mul_one]

/-- C13: for every x and every integer n, power(x, n) is x multiplied n times (x^n,
so 1 when n = 0, including power(0, 0) = 1) when n ≥ 0, and 1 when n < 0. -/
theorem EU_Math_power_eq (x : ℚ) (n : ℤ) :
    EU.Math.power x n = (if 0 ≤ n then x ^ n.toNat else 1) ∧
    EU.Math.power x 0 = 1 ∧ EU.Math.power 0 0 = 1 := by
  have h : ∀ (y : ℚ) (m : ℤ), EU.Math.power y m = y ^ m.toNat := by
    intro y m
    rw [EU.Math.power, powerLoop_eq, one_mul, sub_zero]
  refine ⟨?_, by rw [h]; rfl, by rw [h]; rfl⟩
  rw [h]
  split_ifs with hn
  · rfl
  · have e : n.toNat = 0 := by omega
    rw [e, pow_zero]

/-- After k passes of the loop of `exp`, the running term is x^k / k! and the running
result is the sum of x^j / j! for j from 0 to k. -/
theorem expIter_eq (x : ℚ) (k : ℕ) :
    (EU.Math.expIter x k).1 = x ^ k / (k.factorial : ℚ) ∧
    (EU.Math.expIter x k).2 = ∑ j in Finset.range (k + 1), x ^ j / (j.factorial : ℚ) := by
  induction k with
  | zero => norm_num [EU.Math.expIter]
  | succ k ih =>
    have hk : ((k + 1 : ℕ) : ℚ) ≠ 0 := by positivity
    have hf : ((k.factorial : ℕ) : ℚ) ≠ 0 := by positivity
    have ht : (EU.Math.expIter x (k + 1)).1 = x ^ (k + 1) / ((k + 1).factorial : ℚ) := by
      simp only [EU.Math.expIter]
      rw [ih.1, Nat.factorial_succ]
      push_cast
      field_simp
      ring
    refine ⟨ht, ?_⟩
    rw [Finset.sum_range_succ, ← ih.2, ← ht]
    simp only [EU.Math.expIter]

/-- C17: for every x, exp(x) is the sum of x^k / k! for k from 0 to 10, the running
term after the pass with i = k being x^k / k!; no range reduction is applied, and
exp(0) = 1. -/
theorem EU_Math_exp_taylor (x : ℚ) :
    EU.Math.exp x = ∑ k in Finset.range 11, x ^ k / (k.factorial : ℚ) ∧
    (∀ k : ℕ, (EU.Math.expIter x k).1 = x ^ k / (k.factorial : ℚ)) ∧
    EU.Math.exp x = 1 + x + x ^ 2 / 2 + x ^ 3 / 6 + x ^ 4 / 24 + x ^ 5 / 120 + x ^ 6 / 720
      + x ^ 7 / 5040 + x ^ 8 / 40320 + x ^ 9 / 362880 + x ^ 10 / 3628800 ∧
    EU.Math.exp 0 = 1 := by
  have h : ∀ y : ℚ, EU.Math.exp y = ∑ k in Finset.range 11, y ^ k / (k.factorial : ℚ) :=
    fun y => (expIter_eq y 10).2
  refine ⟨h x, fun k => (expIter_eq x k).1, ?_, ?_⟩
  · rw [h]
    simp [Finset.sum_range_succ, Nat.factorial]
  · rw [h]
    simp [Finset.sum_range_succ, Nat.factorial]

/-! ## The cast to `int`, floor and ceil -/

/-- The cast of a non-negative value below `intMax + 1` is its floor. -/
theorem staticCastInt_of_nonneg (x : ℚ) (h0 : 0 ≤ x) (hhi : x < (EU.Math.intMax : ℚ) + 1) :
    EU.Math.staticCastInt x = some ⌊x⌋ := by
  have h1 : EU.Math.intMin ≤ ⌊x⌋ :=
    le_trans (by norm_num [EU.Math.intMin]) (Int.floor_nonneg.mpr h0)
  have h2 : ⌊x⌋ ≤ EU.Math.intMax := by
    have : ⌊x⌋ < EU.Math.intMax + 1 := Int.floor_lt.mpr (by push_cast; exact hhi)
    omega
  simp [EU.Math.staticCastInt, EU.Math.intResult, h0, h1, h2]

/-- The cast of a negative value above `intMin - 1` is its ceiling. -/
theorem staticCastInt_of_neg (x : ℚ) (h0 : x < 0) (hlo : (EU.Math.intMin : ℚ) - 1 < x) :
    EU.Math.staticCastInt x = some ⌈x⌉ := by
  have h1 : EU.Math.intMin ≤ ⌈x⌉ := by
    have : EU.Math.intMin - 1 < ⌈x⌉ := Int.lt_ceil.mpr (by push_cast; exact hlo)
    omega
  have h2 : ⌈x⌉ ≤ EU.Math.intMax := by
    have hc : ⌈x⌉ ≤ 0 := Int.ceil_le.mpr (by push_cast; exact le_of_lt h0)
    exact le_trans hc (by norm_num [EU.Math.intMax])
  simp [EU.Math.staticCastInt, EU.Math.intResult, not_le.mpr h0, h1, h2]

/-- Within the `int` range, the source's `floor` returns the mathematical floor. -/
theorem floor_eq_intFloor (x : ℚ) (hlo : (EU.Math.intMin : ℚ) ≤ x)
    (hhi : x ≤ (EU.Math.intMax : ℚ)) : EU.Math.floor x = some ⌊x⌋ := by
  rcases le_or_lt 0 x with h0 | h0
  · rw [EU.Math.floor, staticCastInt_of_nonneg x h0 (by linarith)]
    simp [not_lt.mpr h0]
  · rw [EU.Math.floor, staticCastInt_of_neg x h0 (by linarith)]
    by_cases hx : x = (⌈x⌉ : ℚ)
    · have hf : ⌊x⌋ = ⌈x⌉ := by rw [hx]; simp
      simp [← hx, hf]
    · have hlt : x < (⌈x⌉ : ℚ) := lt_of_le_of_ne (Int.le_ceil x) hx
      have h1 : ⌊x⌋ < ⌈x⌉ := Int.floor_lt.mpr hlt
      have h2 : ⌈x⌉ < ⌊x⌋ + 2 := by
        have a := Int.ceil_lt_add_one x
        have b := Int.lt_floor_add_one x
        have c : (⌈x⌉ : ℚ) < ((⌊x⌋ + 2 : ℤ) : ℚ) := by push_cast; linarith
        exact Int.cast_lt.mp c
      have he : ⌈x⌉ - 1 = ⌊x⌋ := by omega
      have r1 : EU.Math.intMin ≤ ⌊x⌋ := Int.le_floor.mpr hlo
      have r2 : ⌊x⌋ ≤ EU.Math.intMax := by
        have : (⌊x⌋ : ℚ) ≤ (EU.Math.intMax : ℚ) := le_trans (Int.floor_le x) hhi
        exact Int.cast_le.mp this
      simp only [Option.bind_eq_bind, Option.some_bind]
      rw [if_pos ⟨h0, hx⟩, he, EU.Math.intResult, if_pos ⟨r1, r2⟩]

/-- Within the `int` range, the source's `ceil` returns the mathematical ceiling. -/
theorem ceil_eq_intCeil (x : ℚ) (hlo : (EU.Math.intMin : ℚ) ≤ x)
    (hhi : x ≤ (EU.Math.intMax : ℚ)) : EU.Math.ceil x = some ⌈x⌉ := by
  rcases lt_or_le x 0 with h0 | h0
  · rw [EU.Math.ceil, staticCastInt_of_neg x h0 (by linarith)]
    simp [not_lt.mpr (le_of_lt h0)]
  · rw [EU.Math.ceil, staticCastInt_of_nonneg x h0 (by linarith)]
    by_cases hx : x = (⌊x⌋ : ℚ)
    · have hf : ⌈x⌉ = ⌊x⌋ := by rw [hx]; simp
      simp [← hx, hf]
    · have hlt : (⌊x⌋ : ℚ) < x := lt_of_le_of_ne (Int.floor_le x) (Ne.symm hx)
      have hpos : 0 < x := lt_of_le_of_ne h0 (fun h => hx (by rw [← h]; simp))
      have h1 : ⌊x⌋ < ⌈x⌉ := Int.lt_ceil.mpr hlt
      have h2 : ⌈x⌉ < ⌊x⌋ + 2 := by
        have a := Int.ceil_lt_add_one x
        have b := Int.lt_floor_add_one x
        have c : (⌈x⌉ : ℚ) < ((⌊x⌋ + 2 : ℤ) : ℚ) := by push_cast; linarith
        exact Int.cast_lt.mp c
      have he : ⌊x⌋ + 1 = ⌈x⌉ := by omega
      have r1 : EU.Math.intMin ≤ ⌈x⌉ := by
        have : (EU.Math.intMin : ℚ) ≤ (⌈x⌉ : ℚ) := le_trans hlo (Int.le_ceil x)
        exact Int.cast_le.mp this
      have r2 : ⌈x⌉ ≤ EU.Math.intMax := Int.ceil_le.mpr hhi
      simp only [Option.bind_eq_bind, Option.some_bind]
      rw [if_pos ⟨hpos, hx⟩, he, EU.Math.intResult, if_pos ⟨r1, r2⟩]

/-- C16: for every x within the `int` range, floor(x) is the greatest integer ≤ x
(floor(x) ≤ x < floor(x) + 1) and ceil(x) is the least integer ≥ x
(ceil(x) - 1 < x ≤ ceil(x)), whatever the sign of x and also when x is integral. -/
theorem EU_Math_floor_ceil (x : ℚ) (hlo : (EU.Math.intMin : ℚ) ≤ x)
    (hhi : x ≤ (EU.Math.intMax : ℚ)) :
    (∃ f : ℤ, EU.Math.floor x = some f ∧ f = ⌊x⌋ ∧ (f : ℚ) ≤ x ∧ x < (f : ℚ) + 1) ∧
    (∃ c : ℤ, EU.Math.ceil x = some c ∧ c = ⌈x⌉ ∧ (c : ℚ) - 1 < x ∧ x ≤ (c : ℚ)) := by
  refine ⟨⟨⌊x⌋, floor_eq_intFloor x hlo hhi, rfl, Int.floor_le x, Int.lt_floor_add_one x⟩,
    ⟨⌈x⌉, ceil_eq_intCeil x hlo hhi, rfl, ?_, Int.le_ceil x⟩⟩
  have := Int.ceil_lt_add_one x
  linarith

/-- Witness for C16 at x = -3/2, a negative value with a fractional part. -/
theorem EU_Math_floor_ceil_witness :
    ((EU.Math.intMin : ℚ) ≤ -3 / 2 ∧ (-3 / 2 : ℚ) ≤ (EU.Math.intMax : ℚ)) ∧
    (∃ f : ℤ, EU.Math.floor (-3 / 2) = some f ∧ f = ⌊(-3 / 2 : ℚ)⌋ ∧
      (f : ℚ) ≤ -3 / 2 ∧ (-3 / 2 : ℚ) < (f : ℚ) + 1) ∧
    (∃ c : ℤ, EU.Math.ceil (-3 / 2) = some c ∧ c = ⌈(-3 / 2 : ℚ)⌉ ∧
      (c : ℚ) - 1 < -3 / 2 ∧ (-3 / 2 : ℚ) ≤ (c : ℚ)) :=
  ⟨⟨by norm_num [EU.Math.intMin], by norm_num [EU.Math.intMax]⟩,
   EU_Math_floor_ceil (-3 / 2) (by norm_num [EU.Math.intMin]) (by norm_num [EU.Math.intMax])⟩

/-! ## The series evaluated without range reduction -/

/-- C18, as amended: for every x already in [-3.14159265, 3.14159265] neither loop
changes the argument, cos(x) equals the four-term series
1 - x^2/2 + x^4/24 - x^6/720, and sin(x) equals the four-term series
x - x^3/6 + x^5/120 - x^7/5040. -/
theorem EU_Math_series_in_range (x : ℚ) (hlo : -3.14159265 ≤ x) (hhi : x ≤ 3.14159265) :
    EU.Math.cos x = 1 - x ^ 2 / 2 + x ^ 4 / 24 - x ^ 6 / 720 ∧
    EU.Math.sin x = x - x ^ 3 / 6 + x ^ 5 / 120 - x ^ 7 / 5040 := by
  constructor
  · simp only [EU.Math.cos]
    rw [whileAbovePi_of_le x hhi, whileBelowNegPi_of_ge x hlo]
    norm_num
    ring
  · simp only [EU.Math.sin]
    rw [whileAbovePi_of_le x hhi, whileBelowNegPi_of_ge x hlo]
    norm_num
    ring

/-- Witness for the amended C18 at x = 2. -/
theorem EU_Math_series_in_range_witness :
    (-3.14159265 ≤ (2 : ℚ) ∧ (2 : ℚ) ≤ 3.14159265) ∧
    EU.Math.cos 2 = 1 - (2 : ℚ) ^ 2 / 2 + (2 : ℚ) ^ 4 / 24 - (2 : ℚ) ^ 6 / 720 ∧
    EU.Math.sin 2 = 2 - (2 : ℚ) ^ 3 / 6 + (2 : ℚ) ^ 5 / 120 - (2 : ℚ) ^ 7 / 5040 :=
  ⟨⟨by norm_num, by norm_num⟩, EU_Math_series_in_range 2 (by norm_num) (by norm_num)⟩

/-- C18 as stated fails at x = 1: the argument is inside [-3.14159265, 3.14159265],
cos(1) = 1 - 1/2 + 1/24 - 1/720 = 389/720, while the three-term series
1 - 1/2 + 1/24 is 390/720. -/
theorem EU_Math_cos_three_term_counterexample :
    (-3.14159265 ≤ (1 : ℚ) ∧ (1 : ℚ) ≤ 3.14159265) ∧
    EU.Math.cos 1 = 389 / 720 ∧
    EU.Math.cos 1 ≠ 1 - (1 : ℚ) ^ 2 / 2 + (1 : ℚ) ^ 4 / 24 := by
  have hc : EU.Math.cos 1 = 389 / 720 := by
    simp only [EU.Math.cos]
    rw [whileAbovePi_of_le 1 (by norm_num), whileBelowNegPi_of_ge 1 (by norm_num)]
    norm_num
  refine ⟨⟨by norm_num, by norm_num⟩, hc, ?_⟩
  rw [hc]
  norm_num

/-! ## Matrix2x2: composition against sequential application -/

/-- C21: for every Matrix2x2 A and B and every CVector2 v, (A * B) * v equals
A * (B * v) component by component, the matrix-vector product having row r equal to
m(r,0) * v.x + m(r,1) * v.y. -/
theorem Matrix2x2_mul_mulVec (A B : Matrix2x2) (v : CVector2) :
    (A.mul B).mulVec v = A.mulVec (B.mulVec v) ∧
    ((A.mul B).mulVec v).x = (A.mulVec (B.mulVec v)).x ∧
    ((A.mul B).mulVec v).y = (A.mulVec (B.mulVec v)).y ∧
    (A.mulVec v).x = A.m00 * v.x + A.m01 * v.y ∧
    (A.mulVec v).y = A.m10 * v.x + A.m11 * v.y := by
  have hx : ((A.mul B).mulVec v).x = (A.mulVec (B.mulVec v)).x := by
    simp only [Matrix2x2.mul, Matrix2x2.mulVec]
    ring
  have hy : ((A.mul B).mulVec v).y = (A.mulVec (B.mulVec v)).y := by
    simp only [Matrix2x2.mul, Matrix2x2.mulVec]
    ring
  have hv : (A.mul B).mulVec v = A.mulVec (B.mulVec v) := by
    cases hL : (A.mul B).mulVec v with
    | mk lx ly =>
      cases hR : A.mulVec (B.mulVec v) with
      | mk rx ry =>
        rw [hL, hR] at hx hy
        simp only at hx hy
        rw [hx, hy]
  exact ⟨hv, hx, hy, rfl, rfl⟩

/-! ## Binary32 rounding: evaluation, symmetry and bracketing -/

/-- The rounded integer is within 1/2 of `x`, and even when exactly 1/2 away. -/
theorem roundHalfEven_spec (x : ℚ) :
    |x - (F32.roundHalfEven x : ℚ)| ≤ 1 / 2 ∧
    (|x - (F32.roundHalfEven x : ℚ)| = 1 / 2 → F32.roundHalfEven x % 2 = 0) := by
  have h1 := Int.floor_le x
  have h2 := Int.lt_floor_add_one x
  unfold F32.roundHalfEven
  simp only
  split_ifs with ha hb hc
  · refine ⟨by rw [abs_le]; constructor <;> linarith, fun h => ?_⟩
    rw [abs_of_nonneg (by linarith)] at h
    linarith
  · refine ⟨by rw [abs_le]; constructor <;> push_cast <;> linarith, fun h => ?_⟩
    push_cast at h
    rw [abs_of_nonpos (by linarith)] at h
    linarith
  · exact ⟨by rw [abs_le]; constructor <;> linarith, fun _ => hc⟩
  · refine ⟨by rw [abs_le]; constructor <;> push_cast <;> linarith, fun _ => ?_⟩
    omega

/-- An integer within 1/2 of `x`, even when exactly 1/2 away, is the rounded integer. -/
theorem roundHalfEven_unique (x : ℚ) (n : ℤ) (h1 : |x - (n : ℚ)| ≤ 1 / 2)
    (h2 : |x - (n : ℚ)| = 1 / 2 → n % 2 = 0) : F32.roundHalfEven x = n := by
  obtain ⟨s1, s2⟩ := roundHalfEven_spec x
  generalize F32.roundHalfEven x = m at s1 s2
  rw [abs_le] at h1 s1
  have a1 : ((m - n : ℤ) : ℚ) ≤ 1 := by push_cast; linarith
  have a2 : ((-1 : ℤ) : ℚ) ≤ ((m - n : ℤ) : ℚ) := by push_cast; linarith
  have b1 : m - n ≤ 1 := by exact_mod_cast a1
  have b2 : -1 ≤ m - n := by exact_mod_cast a2
  rcases (by omega : m - n = 0 ∨ m - n = 1 ∨ m - n = -1) with h | h | h
  · omega
  · have hm : (m : ℚ) = n + 1 := by
      have : ((m - n : ℤ) : ℚ) = 1 := by rw [h]; norm_num
      push_cast at this; linarith
    have e1 : |x - (m : ℚ)| = 1 / 2 := by
      rw [abs_of_nonpos (by linarith)]; linarith
    have e2 : |x - (n : ℚ)| = 1 / 2 := by
      rw [abs_of_nonneg (by linarith)]; linarith
    have := s2 e1
    have := h2 e2
    omega
  · have hm : (m : ℚ) = n - 1 := by
      have : ((m - n : ℤ) : ℚ) = -1 := by rw [h]; norm_num
      push_cast at this; linarith
    have e1 : |x - (m : ℚ)| = 1 / 2 := by
      rw [abs_of_nonneg (by linarith)]; linarith
    have e2 : |x - (n : ℚ)| = 1 / 2 := by
      rw [abs_of_nonpos (by linarith)]; linarith
    have := s2 e1
    have := h2 e2
    omega

/-- An integer closer than 1/2 to `x` is the rounded integer. -/
theorem roundHalfEven_of_abs_lt (x : ℚ) (n : ℤ) (h : |x - (n : ℚ)| < 1 / 2) :
    F32.roundHalfEven x = n :=
  roundHalfEven_unique x n (le_of_lt h) (fun e => absurd e (ne_of_lt h))

/-- An integer rounds to itself. -/
theorem roundHalfEven_intCast (n : ℤ) : F32.roundHalfEven (n : ℚ) = n :=
  roundHalfEven_of_abs_lt _ n (by simp)

/-- Rounding to the even neighbour is symmetric about zero. -/
theorem roundHalfEven_neg (x : ℚ) : F32.roundHalfEven (-x) = -F32.roundHalfEven x := by
  obtain ⟨s1, s2⟩ := roundHalfEven_spec x
  apply roundHalfEven_unique
  · have : -x - ((-F32.roundHalfEven x : ℤ) : ℚ) = -(x - (F32.roundHalfEven x : ℚ)) := by
      push_cast; ring
    rw [this, abs_neg]; exact s1
  · intro h
    have e : -x - ((-F32.roundHalfEven x : ℤ) : ℚ) = -(x - (F32.roundHalfEven x : ℚ)) := by
      push_cast; ring
    rw [e, abs_neg] at h
    have := s2 h
    omega

/-- The rounded integer does not pass an integer above `x`. -/
theorem roundHalfEven_le (x : ℚ) (n : ℤ) (h : x ≤ (n : ℚ)) : F32.roundHalfEven x ≤ n := by
  obtain ⟨s1, s2⟩ := roundHalfEven_spec x
  generalize F32.roundHalfEven x = m at s1 s2
  rw [abs_le] at s1
  by_contra hc
  have hc2 : n + 1 ≤ m := by omega
  have : ((n + 1 : ℤ) : ℚ) ≤ (m : ℚ) := by exact_mod_cast hc2
  push_cast at this
  linarith

/-- The rounded integer does not pass an integer below `x`. -/
theorem le_roundHalfEven (x : ℚ) (n : ℤ) (h : (n : ℚ) ≤ x) : n ≤ F32.roundHalfEven x := by
  have := roundHalfEven_le (-x) (-n) (by push_cast; linarith)
  rw [roundHalfEven_neg] at this
  omega

/-- The unit exponent of a value whose magnitude lies in the binade of `2^E`. -/
theorem ulpExp_eq_of (q : ℚ) (E : ℤ) (hlo : (2 : ℚ) ^ E ≤ |q|) (hhi : |q| < (2 : ℚ) ^ (E + 1)) :
    F32.ulpExp q = max E (-126) - 23 := by
  have hpos : 0 < |q| := lt_of_lt_of_le (by positivity) hlo
  have h1 : E ≤ Int.log 2 |q| := (Int.zpow_le_iff_le_log (by norm_num) hpos).mp (by exact_mod_cast hlo)
  have h2 : Int.log 2 |q| < E + 1 := (Int.lt_zpow_iff_log_lt (by norm_num) hpos).mp (by exact_mod_cast hhi)
  have : Int.log 2 |q| = E := by omega
  rw [F32.ulpExp, this]

/-- Rounding evaluated from the unit exponent and the rounded significand. -/
theorem rnd_eq_some_of (q : ℚ) (e n : ℤ) (he : F32.ulpExp q = e)
    (hn : F32.roundHalfEven (q / 2 ^ e) = n) (hfin : |(n : ℚ) * 2 ^ e| ≤ F32.maxFinite) :
    F32.rnd q = some ((n : ℚ) * 2 ^ e) := by
  have hc : F32.rndCore q = (n : ℚ) * 2 ^ e := by rw [F32.rndCore, he, hn]
  rw [F32.rnd, hc, if_pos hfin]

/-- The unit exponent does not depend on the sign. -/
theorem ulpExp_neg (q : ℚ) : F32.ulpExp (-q) = F32.ulpExp q := by
  rw [F32.ulpExp, F32.ulpExp, abs_neg]

/-- Rounding is symmetric about zero. -/
theorem rndCore_neg (q : ℚ) : F32.rndCore (-q) = -F32.rndCore q := by
  rw [F32.rndCore, F32.rndCore, ulpExp_neg, neg_div, roundHalfEven_neg]
  push_cast
  ring

/-- The unit exponent is never below -149. -/
theorem ulpExp_ge (q : ℚ) : -149 ≤ F32.ulpExp q := by
  have := le_max_right (Int.log 2 |q|) (-126)
  rw [F32.ulpExp]
  omega

/-- A power of two splits off a lower power of two with an integer cofactor. -/
theorem zpow_split (e eF : ℤ) (h : e ≤ eF) :
    (2 : ℚ) ^ eF = ((2 ^ (eF - e).toNat : ℤ) : ℚ) * 2 ^ e := by
  have h2 : (2 : ℚ) ≠ 0 := by norm_num
  have e1 : eF = ((eF - e).toNat : ℤ) + e := by
    rw [Int.toNat_of_nonneg (by omega)]; ring
  conv_lhs => rw [e1, zpow_add₀ h2, zpow_natCast]
  push_cast
  rfl

/-- A non-negative value rounds to a non-negative value. -/
theorem rndCore_nonneg (q : ℚ) (h : 0 ≤ q) : 0 ≤ F32.rndCore q := by
  rw [F32.rndCore]
  have hp : (0 : ℚ) < 2 ^ F32.ulpExp q := by positivity
  have : (0 : ℤ) ≤ F32.roundHalfEven (q / 2 ^ F32.ulpExp q) :=
    le_roundHalfEven _ 0 (by push_cast; exact div_nonneg h (le_of_lt hp))
  have : (0 : ℚ) ≤ (F32.roundHalfEven (q / 2 ^ F32.ulpExp q) : ℚ) := by exact_mod_cast this
  positivity

/-- Either the float is an integer multiple of the unit of q, or it lies below the
binade of q. -/
theorem float_vs_ulp (q F : ℚ) (hq : 0 < q) (hF : F32.Representable F) :
    (∃ N : ℤ, F = (N : ℚ) * 2 ^ F32.ulpExp q) ∨
    (F < (2 : ℚ) ^ (F32.ulpExp q + 23) ∧ (2 : ℚ) ^ (F32.ulpExp q + 23) ≤ q) := by
  obtain ⟨M, eF, hM, he1, he2, rfl⟩ := hF
  rcases le_or_lt (F32.ulpExp q) eF with h | h
  · left
    refine ⟨M * 2 ^ (eF - F32.ulpExp q).toNat, ?_⟩
    rw [zpow_split _ _ h]
    push_cast
    ring
  · right
    have hlog : (2 : ℚ) ^ Int.log 2 |q| ≤ |q| := by
      have := Int.zpow_log_le_self (R := ℚ) (b := 2) (r := |q|) (by norm_num) (abs_pos.mpr (ne_of_gt hq))
      exact_mod_cast this
    rw [abs_of_pos hq] at hlog
    have hE : F32.ulpExp q = Int.log 2 q - 23 := by
      have hu : F32.ulpExp q = max (Int.log 2 |q|) (-126) - 23 := rfl
      rw [abs_of_pos hq] at hu
      have hm : max (Int.log 2 q) (-126) = Int.log 2 q := by
        apply max_eq_left
        by_contra hc
        have : max (Int.log 2 q) (-126) = -126 := max_eq_right (by omega)
        omega
      omega
    have h23 : F32.ulpExp q + 23 = Int.log 2 q := by omega
    rw [h23]
    refine ⟨?_, hlog⟩
    have hMq : (M : ℚ) < 2 ^ 24 := by
      have : M < 2 ^ 24 := lt_of_le_of_lt (le_abs_self M) hM
      exact_mod_cast this
    have hp : (0 : ℚ) < 2 ^ eF := by positivity
    calc (M : ℚ) * 2 ^ eF < 2 ^ 24 * 2 ^ eF := by nlinarith
      _ = 2 ^ (24 + eF) := by
        rw [zpow_add₀ (by norm_num : (2 : ℚ) ≠ 0)]; norm_num
      _ ≤ 2 ^ Int.log 2 q := zpow_le_zpow_right₀ (by norm_num) (by omega)

/-- A positive value does not round past a binary32 value above it. -/
theorem rndCore_le_of_pos (q F : ℚ) (hq : 0 < q) (h : q ≤ F) (hF : F32.Representable F) :
    F32.rndCore q ≤ F := by
  have hp : (0 : ℚ) < 2 ^ F32.ulpExp q := by positivity
  rcases float_vs_ulp q F hq hF with ⟨N, hN⟩ | ⟨h1, h2⟩
  · rw [F32.rndCore, hN]
    have hle : q / 2 ^ F32.ulpExp q ≤ (N : ℚ) := by
      rw [div_le_iff₀ hp, ← hN]; exact h
    have := roundHalfEven_le _ N hle
    have : (F32.roundHalfEven (q / 2 ^ F32.ulpExp q) : ℚ) ≤ (N : ℚ) := by exact_mod_cast this
    nlinarith
  · linarith

/-- A positive value does not round past a positive binary32 value below it. -/
theorem le_rndCore_of_pos (q F : ℚ) (hq : 0 < q) (h : F ≤ q) (hF : F32.Representable F) :
    F ≤ F32.rndCore q := by
  have hp : (0 : ℚ) < 2 ^ F32.ulpExp q := by positivity
  rcases float_vs_ulp q F hq hF with ⟨N, hN⟩ | ⟨h1, h2⟩
  · rw [F32.rndCore, hN]
    have hle : (N : ℚ) ≤ q / 2 ^ F32.ulpExp q := by
      rw [le_div_iff₀ hp, ← hN]; exact h
    have := le_roundHalfEven _ N hle
    have : (N : ℚ) ≤ (F32.roundHalfEven (q / 2 ^ F32.ulpExp q) : ℚ) := by exact_mod_cast this
    nlinarith
  · have hle : (((2 : ℤ) ^ 23 : ℤ) : ℚ) ≤ q / 2 ^ F32.ulpExp q := by
      rw [le_div_iff₀ hp]
      rw [zpow_add₀ (by norm_num : (2 : ℚ) ≠ 0)] at h2
      push_cast
      norm_num at h2 ⊢
      linarith
    have := le_roundHalfEven _ _ hle
    have h3 : (((2 : ℤ) ^ 23 : ℤ) : ℚ) ≤ (F32.roundHalfEven (q / 2 ^ F32.ulpExp q) : ℚ) := by
      exact_mod_cast this
    rw [F32.rndCore]
    rw [zpow_add₀ (by norm_num : (2 : ℚ) ≠ 0)] at h1
    push_cast at h3
    norm_num at h1 h3
    nlinarith

/-- The binary32 values are closed under negation. -/
theorem representable_neg (F : ℚ) (hF : F32.Representable F) : F32.Representable (-F) := by
  obtain ⟨M, e, hM, h1, h2, rfl⟩ := hF
  exact ⟨-M, e, by rwa [abs_neg], h1, h2, by push_cast; ring⟩

/-- Zero is a binary32 value. -/
theorem representable_zero : F32.Representable 0 :=
  ⟨0, 0, by norm_num, by norm_num, by norm_num, by norm_num⟩

/-- Zero rounds to zero. -/
theorem rndCore_zero : F32.rndCore 0 = 0 := by
  have h1 := rndCore_nonneg 0 le_rfl
  have h2 := rndCore_nonneg (-0) (by norm_num)
  rw [rndCore_neg] at h2
  linarith

/-- No value rounds past a binary32 value above it. -/
theorem rndCore_le (q F : ℚ) (h : q ≤ F) (hF : F32.Representable F) : F32.rndCore q ≤ F := by
  rcases lt_trichotomy q 0 with hq | hq | hq
  · rcases le_or_lt 0 F with h0 | h0
    · have := rndCore_nonneg (-q) (by linarith)
      rw [rndCore_neg] at this
      linarith
    · have := le_rndCore_of_pos (-q) (-F) (by linarith) (by linarith) (representable_neg F hF)
      rw [rndCore_neg] at this
      linarith
  · rw [hq, rndCore_zero]; linarith
  · exact rndCore_le_of_pos q F hq h hF

/-- No value rounds past a binary32 value below it. -/
theorem le_rndCore (q F : ℚ) (h : F ≤ q) (hF : F32.Representable F) : F ≤ F32.rndCore q := by
  have := rndCore_le (-q) (-F) (by linarith) (representable_neg F hF)
  rw [rndCore_neg] at this
  linarith

/-- Every binary32 value is at most `maxFinite` in magnitude. -/
theorem representable_abs_le (F : ℚ) (hF : F32.Representable F) : |F| ≤ F32.maxFinite := by
  obtain ⟨M, e, hM, h1, h2, rfl⟩ := hF
  have hM2 : |M| ≤ 2 ^ 24 - 1 := by omega
  have hMq : |(M : ℚ)| ≤ 2 ^ 24 - 1 := by
    have : ((|M| : ℤ) : ℚ) ≤ ((2 ^ 24 - 1 : ℤ) : ℚ) := by exact_mod_cast hM2
    push_cast at this
    norm_num
    exact this
  have hp : (0 : ℚ) < 2 ^ e := by positivity
  have he : (2 : ℚ) ^ e ≤ 2 ^ (104 : ℤ) := zpow_le_zpow_right₀ (by norm_num) h2
  rw [abs_mul, abs_of_pos hp, F32.maxFinite]
  have h104 : (2 : ℚ) ^ (104 : ℤ) = 2 ^ 104 := by norm_num
  rw [h104] at he
  have := abs_nonneg (M : ℚ)
  nlinarith

/-- Bracketing: a value between two binary32 values rounds to a finite value between
them. -/
theorem rnd_bracket (q F1 F2 : ℚ) (h1 : F1 ≤ q) (h2 : q ≤ F2)
    (hF1 : F32.Representable F1) (hF2 : F32.Representable F2) :
    ∃ r : ℚ, F32.rnd q = some r ∧ F1 ≤ r ∧ r ≤ F2 := by
  have a := le_rndCore q F1 h1 hF1
  have b := rndCore_le q F2 h2 hF2
  have c1 := representable_abs_le F1 hF1
  have c2 := representable_abs_le F2 hF2
  rw [abs_le] at c1 c2
  refine ⟨F32.rndCore q, ?_, a, b⟩
  rw [F32.rnd, if_pos]
  rw [abs_le]
  constructor <;> linarith

/-- A binary32 value rounds to itself. -/
theorem rnd_of_representable (F : ℚ) (hF : F32.Representable F) : F32.rnd F = some F := by
  obtain ⟨r, hr, h1, h2⟩ := rnd_bracket F F F le_rfl le_rfl hF hF
  rw [hr, le_antisymm h2 h1]

/-- A value that rounds to itself is a binary32 value. -/
theorem representable_of_rnd_eq (q : ℚ) (h : F32.rnd q = some q) : F32.Representable q := by
  rw [F32.rnd] at h
  split_ifs at h with hfin
  have hc : F32.rndCore q = q := by simpa using h
  rcases eq_or_ne q 0 with h0 | h0
  · rw [h0]; exact representable_zero
  have hpos : 0 < |q| := abs_pos.mpr h0
  have hlog1 : (2 : ℚ) ^ Int.log 2 |q| ≤ |q| := by
    have := Int.zpow_log_le_self (R := ℚ) (b := 2) (r := |q|) (by norm_num) hpos
    exact_mod_cast this
  have hlog2 : |q| < (2 : ℚ) ^ (Int.log 2 |q| + 1) := by
    have := Int.lt_zpow_succ_log_self (R := ℚ) (b := 2) (by norm_num) |q|
    exact_mod_cast this
  have hu : F32.ulpExp q = max (Int.log 2 |q|) (-126) - 23 := rfl
  have hge := le_max_left (Int.log 2 |q|) (-126)
  have hge2 := le_max_right (Int.log 2 |q|) (-126)
  have hp : (0 : ℚ) < 2 ^ F32.ulpExp q := by positivity
  have h2 : (2 : ℚ) ≠ 0 := by norm_num
  refine ⟨F32.roundHalfEven (q / 2 ^ F32.ulpExp q), F32.ulpExp q, ?_, by omega, ?_, ?_⟩
  · -- |N| < 2^24
    have hq : |q| = |(F32.roundHalfEven (q / 2 ^ F32.ulpExp q) : ℚ)| * 2 ^ F32.ulpExp q := by
      conv_lhs => rw [← hc, F32.rndCore, abs_mul, abs_of_pos hp]
    have hlt : |q| < 2 ^ 24 * 2 ^ F32.ulpExp q := by
      calc |q| < (2 : ℚ) ^ (Int.log 2 |q| + 1) := hlog2
        _ ≤ (2 : ℚ) ^ (24 + F32.ulpExp q) := zpow_le_zpow_right₀ (by norm_num) (by omega)
        _ = 2 ^ 24 * 2 ^ F32.ulpExp q := by rw [zpow_add₀ h2]; norm_num
    rw [hq] at hlt
    have hN : |(F32.roundHalfEven (q / 2 ^ F32.ulpExp q) : ℚ)| < 2 ^ 24 :=
      lt_of_mul_lt_mul_right hlt (le_of_lt hp)
    have : ((|F32.roundHalfEven (q / 2 ^ F32.ulpExp q)| : ℤ) : ℚ) < ((2 ^ 24 : ℤ) : ℚ) := by
      push_cast; exact hN
    exact_mod_cast this
  · -- e ≤ 104
    by_contra hc2
    have hE : 128 ≤ Int.log 2 |q| := by
      by_contra hc3
      have : max (Int.log 2 |q|) (-126) ≤ 127 := max_le (by omega) (by norm_num)
      omega
    have h128 : (2 : ℚ) ^ (128 : ℤ) ≤ |q| :=
      le_trans (zpow_le_zpow_right₀ (by norm_num) hE) hlog1
    rw [hc] at hfin
    have : F32.maxFinite < (2 : ℚ) ^ (128 : ℤ) := by norm_num [F32.maxFinite]
    linarith
  · rw [← F32.rndCore, hc]

/-- Evaluation of rounding at a positive value in the normal range. -/
theorem rnd_eval (q : ℚ) (E n : ℤ) (v : ℚ) (hq : 0 < q) (hE : -126 ≤ E)
    (hlo : (2 : ℚ) ^ E ≤ q) (hhi : q < (2 : ℚ) ^ (E + 1))
    (h1 : (n : ℚ) - 1 / 2 < q / 2 ^ (E - 23)) (h2 : q / 2 ^ (E - 23) < (n : ℚ) + 1 / 2)
    (hv : v = (n : ℚ) * 2 ^ (E - 23)) (hfin : |v| ≤ F32.maxFinite) :
    F32.rnd q = some v := by
  have he : F32.ulpExp q = E - 23 := by
    rw [ulpExp_eq_of q E (by rwa [abs_of_pos hq]) (by rwa [abs_of_pos hq]), max_eq_left hE]
  have hn : F32.roundHalfEven (q / 2 ^ (E - 23)) = n :=
    roundHalfEven_of_abs_lt _ _ (by rw [abs_lt]; constructor <;> linarith)
  rw [hv] at hfin ⊢
  exact rnd_eq_some_of q (E - 23) n he hn hfin

/-- Evaluation of rounding at a positive value in the normal range that lies exactly
halfway between two neighbours: the result is the one with the even significand. -/
theorem rnd_eval_tie (q : ℚ) (E n : ℤ) (v : ℚ) (hq : 0 < q) (hE : -126 ≤ E)
    (hlo : (2 : ℚ) ^ E ≤ q) (hhi : q < (2 : ℚ) ^ (E + 1))
    (h1 : q / 2 ^ (E - 23) = (n : ℚ) + 1 / 2 ∨ q / 2 ^ (E - 23) = (n : ℚ) - 1 / 2)
    (hpar : n % 2 = 0)
    (hv : v = (n : ℚ) * 2 ^ (E - 23)) (hfin : |v| ≤ F32.maxFinite) :
    F32.rnd q = some v := by
  have he : F32.ulpExp q = E - 23 := by
    rw [ulpExp_eq_of q E (by rwa [abs_of_pos hq]) (by rwa [abs_of_pos hq]), max_eq_left hE]
  have hn : F32.roundHalfEven (q / 2 ^ (E - 23)) = n := by
    apply roundHalfEven_unique _ _ _ (fun _ => hpar)
    rcases h1 with h | h <;> rw [h, abs_le] <;> constructor <;> linarith
  rw [hv] at hfin ⊢
  exact rnd_eq_some_of q (E - 23) n he hn hfin


/-- The error of rounding: for a value of magnitude at most `B`, with `B` at least the
smallest normal magnitude `2^-126`, the rounded value is within `B / 2^24` of it. -/
theorem rnd_err_le (q B r : ℚ) (hr : F32.rnd q = some r) (hB1 : |q| ≤ B)
    (hB2 : (2 : ℚ) ^ (-126 : ℤ) ≤ B) : |r - q| ≤ B / 2 ^ 24 := by
  have hBpos : 0 < B := lt_of_lt_of_le (by positivity) hB2
  have hrc : r = F32.rndCore q := by
    rw [F32.rnd] at hr
    split_ifs at hr
    exact (Option.some.inj hr).symm
  rcases eq_or_ne q 0 with h0 | h0
  · rw [hrc, h0, rndCore_zero, sub_zero, abs_zero]
    positivity
  have hpos : 0 < |q| := abs_pos.mpr h0
  have hlog : (2 : ℚ) ^ Int.log 2 |q| ≤ |q| := by
    have := Int.zpow_log_le_self (R := ℚ) (b := 2) (r := |q|) (by norm_num) hpos
    exact_mod_cast this
  have hmaxle : (2 : ℚ) ^ max (Int.log 2 |q|) (-126) ≤ B := by
    rcases le_total (Int.log 2 |q|) (-126) with h | h
    · rw [max_eq_right h]; exact hB2
    · rw [max_eq_left h]; exact le_trans hlog hB1
  have hu : (2 : ℚ) ^ F32.ulpExp q = 2 ^ max (Int.log 2 |q|) (-126) / 2 ^ 23 := by
    rw [F32.ulpExp, zpow_sub₀ (by norm_num : (2 : ℚ) ≠ 0)]
    norm_num
  have hp : (0 : ℚ) < 2 ^ F32.ulpExp q := by positivity
  obtain ⟨s1, _⟩ := roundHalfEven_spec (q / 2 ^ F32.ulpExp q)
  have hdiff : r - q
      = -((q / 2 ^ F32.ulpExp q - (F32.roundHalfEven (q / 2 ^ F32.ulpExp q) : ℚ))
          * 2 ^ F32.ulpExp q) := by
    rw [hrc, F32.rndCore]
    field_simp
    ring
  rw [hdiff, abs_neg, abs_mul, abs_of_pos hp]
  calc |q / 2 ^ F32.ulpExp q - (F32.roundHalfEven (q / 2 ^ F32.ulpExp q) : ℚ)|
        * 2 ^ F32.ulpExp q
      ≤ 1 / 2 * 2 ^ F32.ulpExp q := by nlinarith
    _ = 2 ^ max (Int.log 2 |q|) (-126) / 2 ^ 24 := by rw [hu]; ring
    _ ≤ B / 2 ^ 24 := by
      apply div_le_div_of_nonneg_right hmaxle
      positivity

/-! ## Matrix2x2: the quarter-turn rotation -/

/-- C10: setRotation(r) stores m00 = m11 = cos(r), m10 = sin(r), m01 = -sin(r), where
cos and sin are the private series of the class evaluated at the range-reduced angle
(1 - y^2/2 + y^4/24 - y^6/720 and y - y^3/6 + y^5/120 - y^7/5040). At
q = 3.14159265/2 no reduction happens, the product with (1, 0) is exactly
(cos q, sin q) with those series at q, about (-0.00089, 0.99984), and so within 0.01
of (0, 1) in each component. -/
theorem Matrix2x2_setRotation_quarter_turn (a : Matrix2x2) (r : ℚ) :
    a.setRotation r
      = Matrix2x2.mk (Matrix2x2.cos r) (-Matrix2x2.sin r) (Matrix2x2.sin r)
          (Matrix2x2.cos r) ∧
    Matrix2x2.cos r
      = 1 - EU.Math.whileBelowNegPi (EU.Math.whileAbovePi r) ^ 2 / 2
        + EU.Math.whileBelowNegPi (EU.Math.whileAbovePi r) ^ 4 / 24
        - EU.Math.whileBelowNegPi (EU.Math.whileAbovePi r) ^ 6 / 720 ∧
    Matrix2x2.sin r
      = EU.Math.whileBelowNegPi (EU.Math.whileAbovePi r)
        - EU.Math.whileBelowNegPi (EU.Math.whileAbovePi r) ^ 3 / 6
        + EU.Math.whileBelowNegPi (EU.Math.whileAbovePi r) ^ 5 / 120
        - EU.Math.whileBelowNegPi (EU.Math.whileAbovePi r) ^ 7 / 5040 ∧
    EU.Math.whileBelowNegPi (EU.Math.whileAbovePi (3.14159265 / 2)) = 3.14159265 / 2 ∧
    ((a.setRotation (3.14159265 / 2)).mulVec ⟨1, 0⟩).x
      = 1 - (3.14159265 / 2 : ℚ) ^ 2 / 2 + (3.14159265 / 2 : ℚ) ^ 4 / 24
        - (3.14159265 / 2 : ℚ) ^ 6 / 720 ∧
    ((a.setRotation (3.14159265 / 2)).mulVec ⟨1, 0⟩).y
      = 3.14159265 / 2 - (3.14159265 / 2 : ℚ) ^ 3 / 6 + (3.14159265 / 2 : ℚ) ^ 5 / 120
        - (3.14159265 / 2 : ℚ) ^ 7 / 5040 ∧
    (-0.0009 < ((a.setRotation (3.14159265 / 2)).mulVec ⟨1, 0⟩).x ∧
      ((a.setRotation (3.14159265 / 2)).mulVec ⟨1, 0⟩).x < -0.0008) ∧
    (0.9998 < ((a.setRotation (3.14159265 / 2)).mulVec ⟨1, 0⟩).y ∧
      ((a.setRotation (3.14159265 / 2)).mulVec ⟨1, 0⟩).y < 0.9999) ∧
    |((a.setRotation (3.14159265 / 2)).mulVec ⟨1, 0⟩).x - 0| ≤ 0.01 ∧
    |((a.setRotation (3.14159265 / 2)).mulVec ⟨1, 0⟩).y - 1| ≤ 0.01 := by
  have hA : EU.Math.whileAbovePi (3.14159265 / 2) = 3.14159265 / 2 :=
    whileAbovePi_of_le _ (by norm_num)
  have hB : EU.Math.whileBelowNegPi (3.14159265 / 2) = 3.14159265 / 2 :=
    whileBelowNegPi_of_ge _ (by norm_num)
  have hc : ∀ t : ℚ, Matrix2x2.cos t
      = 1 - EU.Math.whileBelowNegPi (EU.Math.whileAbovePi t) ^ 2 / 2
        + EU.Math.whileBelowNegPi (EU.Math.whileAbovePi t) ^ 4 / 24
        - EU.Math.whileBelowNegPi (EU.Math.whileAbovePi t) ^ 6 / 720 := by
    intro t
    simp only [Matrix2x2.cos]
    ring
  have hs : ∀ t : ℚ, Matrix2x2.sin t
      = EU.Math.whileBelowNegPi (EU.Math.whileAbovePi t)
        - EU.Math.whileBelowNegPi (EU.Math.whileAbovePi t) ^ 3 / 6
        + EU.Math.whileBelowNegPi (EU.Math.whileAbovePi t) ^ 5 / 120
        - EU.Math.whileBelowNegPi (EU.Math.whileAbovePi t) ^ 7 / 5040 := by
    intro t
    simp only [Matrix2x2.sin]
    ring
  have hx : ((a.setRotation (3.14159265 / 2)).mulVec ⟨1, 0⟩).x
      = 1 - (3.14159265 / 2 : ℚ) ^ 2 / 2 + (3.14159265 / 2 : ℚ) ^ 4 / 24
        - (3.14159265 / 2 : ℚ) ^ 6 / 720 := by
    simp only [Matrix2x2.setRotation, Matrix2x2.mulVec]
    rw [hc, hs, hA, hB]
    ring
  have hy : ((a.setRotation (3.14159265 / 2)).mulVec ⟨1, 0⟩).y
      = 3.14159265 / 2 - (3.14159265 / 2 : ℚ) ^ 3 / 6 + (3.14159265 / 2 : ℚ) ^ 5 / 120
        - (3.14159265 / 2 : ℚ) ^ 7 / 5040 := by
    simp only [Matrix2x2.setRotation, Matrix2x2.mulVec]
    rw [hc, hs, hA, hB]
    ring
  refine ⟨rfl, hc r, hs r, by rw [hA, hB], hx, hy, ?_, ?_, ?_, ?_⟩
  · rw [hx]; constructor <;> norm_num
  · rw [hy]; constructor <;> norm_num
  · rw [hx, abs_le]; constructor <;> norm_num
  · rw [hy, abs_le]; constructor <;> norm_num

/-! ## round and mod in binary32 -/

/-- The exactness condition of the amended C15 holds at x = -5/2, where
|x| + 1/2 = 3. -/
theorem round_exact_example :
    F32.rnd (|(-5 / 2 : ℚ)| + 1 / 2) = some (|(-5 / 2 : ℚ)| + 1 / 2) :=
  rnd_of_representable _ ⟨3, 0, by norm_num, by norm_num, by norm_num, by
    rw [abs_of_neg (by norm_num)]; norm_num⟩

/-- The exactness conditions of the amended C14 hold at a = 11/2, b = 2, where
mod(11/2, 2) = 3/2. -/
theorem mod_exact_example :
    F32.rnd (11 / 2 / 2 : ℚ) = some (11 / 2 / 2) ∧
    F32.rnd ((⌊(11 / 2 / 2 : ℚ)⌋ : ℤ) : ℚ) = some ((⌊(11 / 2 / 2 : ℚ)⌋ : ℤ) : ℚ) ∧
    F32.rnd (2 * (⌊(11 / 2 / 2 : ℚ)⌋ : ℚ)) = some (2 * (⌊(11 / 2 / 2 : ℚ)⌋ : ℚ)) ∧
    F32.rnd (11 / 2 - 2 * (⌊(11 / 2 / 2 : ℚ)⌋ : ℚ))
      = some (11 / 2 - 2 * (⌊(11 / 2 / 2 : ℚ)⌋ : ℚ)) ∧
    (11 / 2 - 2 * (⌊(11 / 2 / 2 : ℚ)⌋ : ℚ) : ℚ) = 3 / 2 := by
  have hfl : ⌊(11 / 2 / 2 : ℚ)⌋ = 2 := by
    rw [Int.floor_eq_iff]; constructor <;> norm_num
  rw [hfl]
  refine ⟨rnd_of_representable _ ⟨11, -2, by norm_num, by norm_num, by norm_num, by
      rw [zpow_neg]; norm_num⟩,
    rnd_of_representable _ ⟨2, 0, by norm_num, by norm_num, by norm_num, by norm_num⟩,
    rnd_of_representable _ ⟨4, 0, by norm_num, by norm_num, by norm_num, by norm_num⟩,
    rnd_of_representable _ ⟨3, -1, by norm_num, by norm_num, by norm_num, by
      rw [zpow_neg]; norm_num⟩, by norm_num⟩

/-- The values 2 and 4 are binary32 values. -/
theorem representable_two_four : F32.Representable 2 ∧ F32.Representable 4 :=
  ⟨⟨1, 1, by norm_num, by norm_num, by norm_num, by norm_num⟩,
   ⟨1, 2, by norm_num, by norm_num, by norm_num, by norm_num⟩⟩

/-- One pass of the loop body keeps the guess inside an interval `[L, U]` of binary32
values with `L * U = x` whose doubled ends are binary32 values as well: the quotient,
the sum and the halved sum each stay bracketed, so nothing overflows and the guess
stays positive. When `L` is in the normal range, each of the three roundings loses at
most a relative `2^-24`, so the square of the new guess is at least
`x * (1 - 6 / 2^24)`. -/
theorem sqrtStepF32_bracket (x L U g : ℚ) (hL : 0 < L) (hLU : L * U = x)
    (rL : F32.Representable L) (rU : F32.Representable U)
    (r2L : F32.Representable (2 * L)) (r2U : F32.Representable (2 * U))
    (h1 : L ≤ g) (h2 : g ≤ U) :
    ∃ g2 : ℚ, EU.Math.sqrtStepF32 x g = some g2 ∧ L ≤ g2 ∧ g2 ≤ U ∧
      ((2 : ℚ) ^ (-126 : ℤ) ≤ L → x * (1 - 6 / 2 ^ 24) ≤ g2 * g2) := by
  have hg : 0 < g := lt_of_lt_of_le hL h1
  have hU : 0 < U := lt_of_lt_of_le hg h2
  have hq1 : L ≤ x / g := by rw [le_div_iff₀ hg, ← hLU]; nlinarith
  have hq2 : x / g ≤ U := by rw [div_le_iff₀ hg, ← hLU]; nlinarith
  obtain ⟨d, hd, d1, d2⟩ := rnd_bracket (x / g) L U hq1 hq2 rL rU
  obtain ⟨s, hs, s1, s2⟩ := rnd_bracket (g + d) (2 * L) (2 * U) (by linarith) (by linarith)
    r2L r2U
  obtain ⟨g2, hg2, t1, t2⟩ := rnd_bracket (0.5 * s) L U (by norm_num; linarith)
    (by norm_num; linarith) rL rU
  refine ⟨g2, ?_, t1, t2, fun hn => ?_⟩
  · simp only [EU.Math.sqrtStepF32, F32.fdiv, F32.fadd, F32.fmul, Option.bind_eq_bind]
    rw [if_neg (ne_of_gt hg), hd, Option.some_bind, hs, Option.some_bind, hg2]
  · have ht : 0 < x / g := lt_of_lt_of_le hL hq1
    have e1 := rnd_err_le (x / g) (x / g) d hd (by rw [abs_of_pos ht]) (le_trans hn hq1)
    have e2 := rnd_err_le (g + d) (g + d) s hs (by rw [abs_of_pos (by linarith)])
      (le_trans hn (by linarith))
    have e3 := rnd_err_le (0.5 * s) (0.5 * s) g2 hg2
      (by rw [abs_of_pos (by norm_num; linarith)]) (le_trans hn (by norm_num; linarith))
    rw [abs_le] at e1 e2 e3
    have hgt : g * (x / g) = x := by field_simp
    generalize x / g = t at ht e1 hgt hq1 hq2
    have hA : (1 - 1 / 2 ^ 24) ^ 3 / 2 * (g + t) ≤ g2 := by
      norm_num at e1 e2 e3 ⊢
      linarith
    have hA0 : (0 : ℚ) ≤ (1 - 1 / 2 ^ 24) ^ 3 / 2 * (g + t) := by
      have : (0 : ℚ) ≤ (1 - 1 / 2 ^ 24) ^ 3 / 2 := by norm_num
      exact mul_nonneg this (by linarith)
    have hsq := mul_self_le_mul_self hA0 hA
    have hB : 4 * x ≤ (g + t) * (g + t) := by nlinarith [sq_nonneg (g - t)]
    have hx0 : 0 ≤ x := by rw [← hgt]; positivity
    have hC : x * (1 - 6 / 2 ^ 24)
        ≤ (1 - 1 / 2 ^ 24) ^ 3 / 2 * (g + t) * ((1 - 1 / 2 ^ 24) ^ 3 / 2 * (g + t)) := by
      have e : (1 - 1 / 2 ^ 24) ^ 3 / 2 * (g + t) * ((1 - 1 / 2 ^ 24) ^ 3 / 2 * (g + t))
          = (1 - 1 / 2 ^ 24 : ℚ) ^ 6 / 4 * ((g + t) * (g + t)) := by ring
      have hc : (1 - 6 / 2 ^ 24 : ℚ) ≤ (1 - 1 / 2 ^ 24) ^ 6 := by norm_num
      have hc0 : (0 : ℚ) ≤ (1 - 1 / 2 ^ 24) ^ 6 / 4 := by norm_num
      rw [e]
      calc x * (1 - 6 / 2 ^ 24) ≤ x * (1 - 1 / 2 ^ 24) ^ 6 :=
            mul_le_mul_of_nonneg_left hc hx0
        _ = (1 - 1 / 2 ^ 24 : ℚ) ^ 6 / 4 * (4 * x) := by ring
        _ ≤ (1 - 1 / 2 ^ 24 : ℚ) ^ 6 / 4 * ((g + t) * (g + t)) :=
            mul_le_mul_of_nonneg_left hB hc0
    linarith

/-- Starting from an exactly representable `x / 2` inside `[L, U]`, the guess stays in
`[L, U]` after any number of passes, and after one pass or more its square is at
least `x * (1 - 6 / 2^24)` when `L` is in the normal range. -/
theorem sqrtIterF32_bracket (x L U : ℚ) (hL : 0 < L) (hLU : L * U = x)
    (rL : F32.Representable L) (rU : F32.Representable U)
    (r2L : F32.Representable (2 * L)) (r2U : F32.Representable (2 * U))
    (h1 : L ≤ x / 2) (h2 : x / 2 ≤ U) (hH : F32.rnd (x / 2) = some (x / 2)) (k : ℕ) :
    ∃ g : ℚ, EU.Math.sqrtIterF32 x k = some g ∧ L ≤ g ∧ g ≤ U ∧
      ((2 : ℚ) ^ (-126 : ℤ) ≤ L → 0 < k → x * (1 - 6 / 2 ^ 24) ≤ g * g) := by
  induction k with
  | zero =>
    refine ⟨x / 2, ?_, h1, h2, fun _ h => absurd h (lt_irrefl 0)⟩
    have e : x / 2.0 = x / 2 := by norm_num
    rw [EU.Math.sqrtIterF32, F32.fdiv, if_neg (by norm_num), e, hH]
  | succ k ih =>
    obtain ⟨g, hg, g1, g2, _⟩ := ih
    obtain ⟨g3, hg3, a, b, c⟩ := sqrtStepF32_bracket x L U g hL hLU rL rU r2L r2U g1 g2
    exact ⟨g3, by rw [EU.Math.sqrtIterF32, hg, Option.some_bind, hg3], a, b, fun hn _ => c hn⟩

/-- C20, as amended: in binary32, for every binary32 value x > 0 whose half x / 2 is a
binary32 value too, the Newton guess is present and strictly positive before each of
the ten passes (so x / guess never divides by zero and no step overflows), and the
returned value r satisfies r > 0, lies between min(x/2, 2) and max(x/2, 2), and, when
x ≥ 2^-125, has r * r ≥ x * (1 - 6 / 2^24). -/
theorem EU_Math_sqrtF32_safe (x : ℚ) (hx : 0 < x) (hF : F32.rnd x = some x)
    (hH : F32.rnd (x / 2) = some (x / 2)) :
    (∀ i : ℕ, i < 10 → ∃ g : ℚ, EU.Math.sqrtIterF32 x i = some g ∧ 0 < g) ∧
    ∃ r : ℚ, EU.Math.sqrtF32 x = some r ∧ 0 < r ∧ min (x / 2) 2 ≤ r ∧ r ≤ max (x / 2) 2 ∧
      ((1 : ℚ) / 2 ^ 125 ≤ x → x * (1 - 6 / 2 ^ 24) ≤ r * r) := by
  have rx := representable_of_rnd_eq x hF
  have rh := representable_of_rnd_eq (x / 2) hH
  obtain ⟨r2, r4⟩ := representable_two_four
  have e1 : 2 * (x / 2) = x := by ring
  have e2 : (2 : ℚ) * 2 = 4 := by norm_num
  have e126 : (2 : ℚ) ^ (-126 : ℤ) = 1 / 2 ^ 126 := by rw [zpow_neg]; norm_num
  have key : ∀ k : ℕ, ∃ g : ℚ, EU.Math.sqrtIterF32 x k = some g ∧
      min (x / 2) 2 ≤ g ∧ g ≤ max (x / 2) 2 ∧ 0 < g ∧
      ((1 : ℚ) / 2 ^ 125 ≤ x → 0 < k → x * (1 - 6 / 2 ^ 24) ≤ g * g) := by
    intro k
    rcases le_total (x / 2) 2 with h | h
    · rw [min_eq_left h, max_eq_right h]
      obtain ⟨g, hg, a, b, c⟩ := sqrtIterF32_bracket x (x / 2) 2 (by linarith) (by ring) rh r2
        (by rw [e1]; exact rx) (by rw [e2]; exact r4) le_rfl h hH k
      exact ⟨g, hg, a, b, by linarith, fun hn hk => c (by rw [e126]; linarith) hk⟩
    · rw [min_eq_right h, max_eq_left h]
      obtain ⟨g, hg, a, b, c⟩ := sqrtIterF32_bracket x 2 (x / 2) (by norm_num) (by ring) r2 rh
        (by rw [e2]; exact r4) (by rw [e1]; exact rx) h le_rfl hH k
      exact ⟨g, hg, a, b, by linarith, fun _ hk => c (by rw [e126]; norm_num) hk⟩
  refine ⟨fun i _ => ?_, ?_⟩
  · obtain ⟨g, hg, _, _, hpos, _⟩ := key i
    exact ⟨g, hg, hpos⟩
  · obtain ⟨g, hg, a, b, hpos, c⟩ := key 10
    exact ⟨g, by rw [EU.Math.sqrtF32, if_neg (not_le.mpr hx), hg], hpos, a, b,
      fun hn => c hn (by norm_num)⟩

/-- Witness for the amended C20 at x = 2, whose half 1 is a binary32 value. -/
theorem EU_Math_sqrtF32_safe_witness :
    ((0 : ℚ) < 2 ∧ F32.rnd 2 = some 2 ∧ F32.rnd (2 / 2) = some (2 / 2)) ∧
    (∀ i : ℕ, i < 10 → ∃ g : ℚ, EU.Math.sqrtIterF32 2 i = some g ∧ 0 < g) ∧
    ∃ r : ℚ, EU.Math.sqrtF32 2 = some r ∧ 0 < r ∧ min (2 / 2 : ℚ) 2 ≤ r ∧
      r ≤ max (2 / 2 : ℚ) 2 ∧ ((1 : ℚ) / 2 ^ 125 ≤ 2 → 2 * (1 - 6 / 2 ^ 24) ≤ r * r) :=
  ⟨⟨by norm_num, rnd_of_representable 2 representable_two_four.1,
      rnd_of_representable (2 / 2) ⟨1, 0, by norm_num, by norm_num, by norm_num, by norm_num⟩⟩,
   EU_Math_sqrtF32_safe 2 (by norm_num) (rnd_of_representable 2 representable_two_four.1)
     (rnd_of_representable (2 / 2)
       ⟨1, 0, by norm_num, by norm_num, by norm_num, by norm_num⟩)⟩

/-- Pass 0 of `sqrt(2.0f)` in binary32: the guess 1 becomes 3 / 2. -/
theorem sqrtStepF32_two_pass0 : EU.Math.sqrtStepF32 2 1 = some (3 / 2) := by
  have h1 : F32.rnd (2 / 1) = some 2 :=
    rnd_eval _ 1 8388608 _ (by norm_num) (by norm_num) (by norm_num) (by norm_num)
      (by norm_num) (by norm_num) (by norm_num) (by norm_num [F32.maxFinite, abs_of_pos])
  have h2 : F32.rnd (1 + 2) = some 3 :=
    rnd_eval _ 1 12582912 _ (by norm_num) (by norm_num) (by norm_num) (by norm_num)
      (by norm_num) (by norm_num) (by norm_num) (by norm_num [F32.maxFinite, abs_of_pos])
  have h3 : F32.rnd (0.5 * 3) = some (3 / 2) :=
    rnd_eval _ 0 12582912 _ (by norm_num) (by norm_num) (by norm_num) (by norm_num)
      (by norm_num) (by norm_num) (by norm_num) (by norm_num [F32.maxFinite, abs_of_pos])
  simp only [EU.Math.sqrtStepF32, F32.fdiv, F32.fadd, F32.fmul, Option.bind_eq_bind]
  rw [if_neg (by norm_num), h1, Option.some_bind, h2, Option.some_bind, h3]

/-- Pass 1 of `sqrt(2.0f)` in binary32: the guess 3 / 2 becomes 5941931 / 4194304. -/
theorem sqrtStepF32_two_pass1 : EU.Math.sqrtStepF32 2 (3 / 2) = some (5941931 / 4194304) := by
  have h1 : F32.rnd (2 / (3 / 2)) = some (11184811 / 8388608) :=
    rnd_eval _ 0 11184811 _ (by norm_num) (by norm_num) (by norm_num) (by norm_num)
      (by norm_num) (by norm_num) (by norm_num) (by norm_num [F32.maxFinite, abs_of_pos])
  have h2 : F32.rnd (3 / 2 + 11184811 / 8388608) = some (5941931 / 2097152) :=
    rnd_eval_tie _ 1 11883862 _ (by norm_num) (by norm_num) (by norm_num) (by norm_num)
      (Or.inr (by norm_num)) (by norm_num) (by norm_num)
      (by norm_num [F32.maxFinite, abs_of_pos])
  have h3 : F32.rnd (0.5 * (5941931 / 2097152)) = some (5941931 / 4194304) :=
    rnd_eval _ 0 11883862 _ (by norm_num) (by norm_num) (by norm_num) (by norm_num)
      (by norm_num) (by norm_num) (by norm_num) (by norm_num [F32.maxFinite, abs_of_pos])
  simp only [EU.Math.sqrtStepF32, F32.fdiv, F32.fadd, F32.fmul, Option.bind_eq_bind]
  rw [if_neg (by norm_num), h1, Option.some_bind, h2, Option.some_bind, h3]

/-- Pass 2 of `sqrt(2.0f)` in binary32: the guess 5941931 / 4194304 becomes 11863301 / 8388608. -/
theorem sqrtStepF32_two_pass2 :
    EU.Math.sqrtStepF32 2 (5941931 / 4194304)
      = some (11863301 / 8388608) := by
  have h1 : F32.rnd (2 / (5941931 / 4194304)) = some (2960685 / 2097152) :=
    rnd_eval _ 0 11842740 _ (by norm_num) (by norm_num) (by norm_num) (by norm_num)
      (by norm_num) (by norm_num) (by norm_num) (by norm_num [F32.maxFinite, abs_of_pos])
  have h2 : F32.rnd (5941931 / 4194304 + 2960685 / 2097152) = some (11863301 / 4194304) :=
    rnd_eval _ 1 11863301 _ (by norm_num) (by norm_num) (by norm_num) (by norm_num)
      (by norm_num) (by norm_num) (by norm_num) (by norm_num [F32.maxFinite, abs_of_pos])
  have h3 : F32.rnd (0.5 * (11863301 / 4194304)) = some (11863301 / 8388608) :=
    rnd_eval _ 0 11863301 _ (by norm_num) (by norm_num) (by norm_num) (by norm_num)
      (by norm_num) (by norm_num) (by norm_num) (by norm_num [F32.maxFinite, abs_of_pos])
  simp only [EU.Math.sqrtStepF32, F32.fdiv, F32.fadd, F32.fmul, Option.bind_eq_bind]
  rw [if_neg (by norm_num), h1, Option.some_bind, h2, Option.some_bind, h3]

/-- Pass 3 of `sqrt(2.0f)` in binary32: the guess 11863301 / 8388608 becomes 11863283 / 8388608. -/
theorem sqrtStepF32_two_pass3 :
    EU.Math.sqrtStepF32 2 (11863301 / 8388608)
      = some (11863283 / 8388608) := by
  have h1 : F32.rnd (2 / (11863301 / 8388608)) = some (11863265 / 8388608) :=
    rnd_eval _ 0 11863265 _ (by norm_num) (by norm_num) (by norm_num) (by norm_num)
      (by norm_num) (by norm_num) (by norm_num) (by norm_num [F32.maxFinite, abs_of_pos])
  have h2 : F32.rnd (11863301 / 8388608 + 11863265 / 8388608) = some (11863283 / 4194304) :=
    rnd_eval _ 1 11863283 _ (by norm_num) (by norm_num) (by norm_num) (by norm_num)
      (by norm_num) (by norm_num) (by norm_num) (by norm_num [F32.maxFinite, abs_of_pos])
  have h3 : F32.rnd (0.5 * (11863283 / 4194304)) = some (11863283 / 8388608) :=
    rnd_eval _ 0 11863283 _ (by norm_num) (by norm_num) (by norm_num) (by norm_num)
      (by norm_num) (by norm_num) (by norm_num) (by norm_num [F32.maxFinite, abs_of_pos])
  simp only [EU.Math.sqrtStepF32, F32.fdiv, F32.fadd, F32.fmul, Option.bind_eq_bind]
  rw [if_neg (by norm_num), h1, Option.some_bind, h2, Option.some_bind, h3]

/-- Pass 4 of `sqrt(2.0f)` in binary32: the guess 11863283 / 8388608 becomes 11863283 / 8388608. -/
theorem sqrtStepF32_two_pass4 :
    EU.Math.sqrtStepF32 2 (11863283 / 8388608)
      = some (11863283 / 8388608) := by
  have h1 : F32.rnd (2 / (11863283 / 8388608)) = some (11863283 / 8388608) :=
    rnd_eval _ 0 11863283 _ (by norm_num) (by norm_num) (by norm_num) (by norm_num)
      (by norm_num) (by norm_num) (by norm_num) (by norm_num [F32.maxFinite, abs_of_pos])
  have h2 : F32.rnd (11863283 / 8388608 + 11863283 / 8388608) = some (11863283 / 4194304) :=
    rnd_eval _ 1 11863283 _ (by norm_num) (by norm_num) (by norm_num) (by norm_num)
      (by norm_num) (by norm_num) (by norm_num) (by norm_num [F32.maxFinite, abs_of_pos])
  have h3 : F32.rnd (0.5 * (11863283 / 4194304)) = some (11863283 / 8388608) :=
    rnd_eval _ 0 11863283 _ (by norm_num) (by norm_num) (by norm_num) (by norm_num)
      (by norm_num) (by norm_num) (by norm_num) (by norm_num [F32.maxFinite, abs_of_pos])
  simp only [EU.Math.sqrtStepF32, F32.fdiv, F32.fadd, F32.fmul, Option.bind_eq_bind]
  rw [if_neg (by norm_num), h1, Option.some_bind, h2, Option.some_bind, h3]

/-- From the fourth pass on, the guess of `sqrt(2.0f)` in binary32 no longer moves. -/
theorem sqrtIterF32_two (k : ℕ) :
    EU.Math.sqrtIterF32 2 (k + 4) = some (11863283 / 8388608) := by
  have h0 : EU.Math.sqrtIterF32 2 0 = some 1 := by
    have h : F32.rnd (2 / 2.0) = some 1 :=
      rnd_eval _ 0 8388608 _ (by norm_num) (by norm_num) (by norm_num) (by norm_num)
        (by norm_num) (by norm_num) (by norm_num) (by norm_num [F32.maxFinite, abs_of_pos])
    rw [EU.Math.sqrtIterF32, F32.fdiv, if_neg (by norm_num), h]
  have h1 : EU.Math.sqrtIterF32 2 1 = some (3 / 2) := by
    rw [EU.Math.sqrtIterF32, h0, Option.some_bind, sqrtStepF32_two_pass0]
  have h2 : EU.Math.sqrtIterF32 2 2 = some (5941931 / 4194304) := by
    rw [EU.Math.sqrtIterF32, h1, Option.some_bind, sqrtStepF32_two_pass1]
  have h3 : EU.Math.sqrtIterF32 2 3 = some (11863301 / 8388608) := by
    rw [EU.Math.sqrtIterF32, h2, Option.some_bind, sqrtStepF32_two_pass2]
  induction k with
  | zero => rw [EU.Math.sqrtIterF32, h3, Option.some_bind, sqrtStepF32_two_pass3]
  | succ k ih => rw [EU.Math.sqrtIterF32, ih, Option.some_bind, sqrtStepF32_two_pass4]

/-- The smallest positive binary32 value, `2^-149`, is a binary32 value whose half
rounds to zero (a tie that goes to the even neighbour). -/
theorem rnd_half_minSubnormal :
    F32.rnd (1 / 2 ^ 149) = some (1 / 2 ^ 149) ∧ F32.rnd (1 / 2 ^ 149 / 2.0) = some 0 := by
  refine ⟨rnd_of_representable _ ⟨1, -149, by norm_num, by norm_num, by norm_num, ?_⟩, ?_⟩
  · rw [zpow_neg]; norm_num
  · have he : F32.ulpExp (1 / 2 ^ 149 / 2.0) = -149 := by
      rw [ulpExp_eq_of _ (-150) (by rw [zpow_neg]; norm_num [abs_of_pos])
        (by rw [abs_of_pos (by norm_num)]; norm_num [zpow_neg])]
      norm_num
    have hn : F32.roundHalfEven (1 / 2 ^ 149 / 2.0 / 2 ^ (-149 : ℤ)) = 0 := by
      apply roundHalfEven_unique
      · rw [zpow_neg]; norm_num [abs_of_pos]
      · intro _; norm_num
    have := rnd_eq_some_of _ (-149) 0 he hn (by norm_num [F32.maxFinite])
    rw [this]
    norm_num

/-- C20 as stated fails in binary32. At x = 2.0f, a binary32 value, the ten passes
return r = 11863283 / 8388608 with r * r < 2. At x = 2^-149, the smallest positive
binary32 value, the starting guess x / 2 rounds to 0, so the guess before the first
pass is not positive and that pass divides by zero (no finite result). -/
theorem EU_Math_sqrt_safe_counterexample :
    ((0 : ℚ) < 2 ∧ F32.rnd 2 = some 2 ∧
      EU.Math.sqrtF32 2 = some (11863283 / 8388608) ∧
      (11863283 / 8388608 : ℚ) * (11863283 / 8388608) < 2) ∧
    ((0 : ℚ) < 1 / 2 ^ 149 ∧ F32.rnd (1 / 2 ^ 149) = some (1 / 2 ^ 149) ∧
      EU.Math.sqrtIterF32 (1 / 2 ^ 149) 0 = some 0 ∧
      EU.Math.sqrtStepF32 (1 / 2 ^ 149) 0 = none ∧
      EU.Math.sqrtF32 (1 / 2 ^ 149) = none) := by
  have hi0 : EU.Math.sqrtIterF32 (1 / 2 ^ 149) 0 = some 0 := by
    rw [EU.Math.sqrtIterF32, F32.fdiv, if_neg (by norm_num), rnd_half_minSubnormal.2]
  have hs0 : ∀ y : ℚ, EU.Math.sqrtStepF32 y 0 = none := by
    intro y
    simp [EU.Math.sqrtStepF32, F32.fdiv]
  refine ⟨⟨by norm_num, rnd_of_representable 2 representable_two_four.1, ?_, by norm_num⟩,
    ⟨by positivity, rnd_half_minSubnormal.1, hi0, hs0 _, ?_⟩⟩
  · rw [EU.Math.sqrtF32, if_neg (by norm_num)]
    exact sqrtIterF32_two 6
  · have hk : ∀ k : ℕ, EU.Math.sqrtIterF32 (1 / 2 ^ 149) (k + 1) = none := by
      intro k
      induction k with
      | zero => rw [EU.Math.sqrtIterF32, hi0, Option.some_bind, hs0]
      | succ k ih => rw [EU.Math.sqrtIterF32, ih, Option.none_bind]
    rw [EU.Math.sqrtF32, if_neg (by norm_num)]
    exact hk 9
